import Mathlib

/-!
Verification of the DSA-project search engine core against its specification.

The C++ sources are shallowly embedded: strings are lists of characters,
`std::map` / `std::unordered_map` values are association lists kept in the
order the code iterates or inserts them, machine integers are `Int`
(overflow never matters at the sizes involved), and `double` arithmetic is
modelled over `ℝ`.  Fallible I/O is modelled by explicit state passing with
failure-injection flags.  Each definition carries the name of the C++
function it embeds.
-/

namespace SearchEngine

/-- `Str` models `std::string` as a list of characters. -/
abbrev Str := List Char

/-- `std::tolower` on an unsigned char under the C locale: only `A`-`Z`
    are mapped (down to `a`-`z`); everything else is unchanged. -/
def toLowerChar (c : Char) : Char :=
  if 'A' ≤ c ∧ c ≤ 'Z' then Char.ofNat (c.toNat + 32) else c

/-- `std::isdigit` under the C locale. -/
def isDigitChar (c : Char) : Bool :=
  '0' ≤ c ∧ c ≤ '9'

/-- `std::isalnum` under the C locale. -/
def isAlnumChar (c : Char) : Bool :=
  ('0' ≤ c ∧ c ≤ '9') ∨ ('a' ≤ c ∧ c ≤ 'z') ∨ ('A' ≤ c ∧ c ≤ 'Z')

/-- `std::isspace` under the C locale. -/
def isSpaceChar (c : Char) : Bool :=
  c = ' ' ∨ c = '\t' ∨ c = '\n' ∨ c = '\x0b' ∨ c = '\x0c' ∨ c = '\r'

/-- Case-folding a whole string (`std::transform` with `tolower`). -/
def toLowerStr (s : Str) : Str := s.map toLowerChar

theorem char_toNat_ofNat_of_lt (n : Nat) (h : n < 55296) : (Char.ofNat n).toNat = n := by
  have hv : n.isValidChar := Or.inl h
  simp [Char.ofNat, hv, Char.ofNatAux, Char.toNat, UInt32.toNat]

theorem char_le_iff_toNat (a b : Char) : a ≤ b ↔ a.toNat ≤ b.toNat := by
  constructor
  · intro h
    exact h
  · intro h
    exact h

theorem toLowerChar_idem (c : Char) : toLowerChar (toLowerChar c) = toLowerChar c := by
  unfold toLowerChar
  by_cases h : 'A' ≤ c ∧ c ≤ 'Z'
  · have hc1 : 65 ≤ c.toNat := h.1
    have hc2 : c.toNat ≤ 90 := h.2
    have hval : (Char.ofNat (c.toNat + 32)).toNat = c.toNat + 32 :=
      char_toNat_ofNat_of_lt _ (by omega)
    have hnot : ¬ ('A' ≤ Char.ofNat (c.toNat + 32) ∧ Char.ofNat (c.toNat + 32) ≤ 'Z') := by
      intro hcontra
      have h90 : (Char.ofNat (c.toNat + 32)).toNat ≤ 90 :=
        (char_le_iff_toNat _ _).1 hcontra.2
      omega
    simp [h, hnot]
  · simp [h]

theorem toLowerStr_idem (s : Str) : toLowerStr (toLowerStr s) = toLowerStr s := by
  simp only [toLowerStr, List.map_map, Function.comp]
  exact List.map_congr_left (fun c _ => toLowerChar_idem c)

/-! ## Trie (`Trie.hpp` / `Trie.cpp`, claim C6)

`TrieNode` holds `is_end_of_word`, the stored `word` (only meaningful at
terminal nodes) and the `children` map.  `std::map<char, TrieNode>` is
modelled as an association list kept sorted by key, which is exactly the
iteration order the C++ code relies on for lexicographic output. -/

inductive TrieNode where
  | mk (is_end_of_word : Bool) (word : Str) (children : List (Char × TrieNode))

namespace TrieNode

def is_end_of_word : TrieNode → Bool
  | .mk e _ _ => e

def word : TrieNode → Str
  | .mk _ w _ => w

def children : TrieNode → List (Char × TrieNode)
  | .mk _ _ c => c

end TrieNode

/-- A fresh `TrieNode()` (`is_end_of_word = false`, `word = ""`). -/
def emptyTrieNode : TrieNode := .mk false [] []

/-- `children.find(c)` on the sorted child map. -/
def childLookup (cs : List (Char × TrieNode)) (c : Char) : Option TrieNode :=
  match cs with
  | [] => none
  | (k, t) :: rest => if k = c then some t else childLookup rest c

/-- `children[c] = t` on the sorted child map (`std::map::operator[]`
    keeps the keys ordered). -/
def childUpdate (cs : List (Char × TrieNode)) (c : Char) (t : TrieNode) :
    List (Char × TrieNode) :=
  match cs with
  | [] => [(c, t)]
  | (k, u) :: rest =>
    if c < k then (c, t) :: (k, u) :: rest
    else if c = k then (c, t) :: rest
    else (k, u) :: childUpdate rest c t

/-- The descent loop of `Trie::insert`: walk (creating nodes on demand)
    along the case-folded characters of `rest`, then mark the final node
    terminal and store the full original `word` there. -/
def insertGo (node : TrieNode) (rest : Str) (w : Str) : TrieNode :=
  match rest with
  | [] => .mk true w node.children
  | c :: cs =>
    let lc := toLowerChar c
    let child := (childLookup node.children lc).getD emptyTrieNode
    .mk node.is_end_of_word node.word (childUpdate node.children lc (insertGo child cs w))

/-- `Trie::insert` (empty words are rejected up front). -/
def trieInsert (root : TrieNode) (w : Str) : TrieNode :=
  if w = [] then root else insertGo root w w

/-- The prefix-descent loop of `Trie::autocomplete`: follow the case-folded
    prefix characters; `none` when some character has no child. -/
def descend (node : TrieNode) (p : Str) : Option TrieNode :=
  match p with
  | [] => some node
  | c :: cs =>
    match childLookup node.children (toLowerChar c) with
    | none => none
    | some child => descend child cs

mutual

/-- `Trie::collect_words` (the `results` vector is threaded through). -/
def collect_words : TrieNode → List Str → Nat → List Str
  | .mk e w cs, results, max_count =>
    if max_count ≤ results.length then results
    else
      let results1 := if e ∧ w ≠ [] then results ++ [w] else results
      if max_count ≤ results1.length then results1
      else collectChildren cs results1 max_count
termination_by node _ _ => sizeOf node

/-- The `for (auto& pair : node->children)` loop inside `collect_words`. -/
def collectChildren (cs : List (Char × TrieNode)) (results : List Str) (max_count : Nat) :
    List Str :=
  match cs with
  | [] => results
  | (_, t) :: rest =>
    let r := collect_words t results max_count
    if max_count ≤ r.length then r
    else collectChildren rest r max_count
termination_by sizeOf cs

end

/-- `Trie::autocomplete`. -/
def trieAutocomplete (root : TrieNode) (p : Str) (k : Int) : List Str :=
  if k ≤ 0 then []
  else
    match descend root p with
    | none => []
    | some node => collect_words node [] k.toNat

/-- The trie built by `LexiconWithTrie::rebuild_trie`: every lexicon word is
    inserted in turn into a cleared trie. -/
def buildTrie (ws : List Str) : TrieNode := ws.foldl trieInsert emptyTrieNode

mutual

/-- The full in-order word list of a subtree (what `collect_words` would
    produce with an unbounded budget). -/
def nodeWords : TrieNode → List Str
  | .mk e w cs => (if e ∧ w ≠ [] then [w] else []) ++ childrenWords cs
termination_by node => sizeOf node

def childrenWords : List (Char × TrieNode) → List Str
  | [] => []
  | (_, t) :: rest => nodeWords t ++ childrenWords rest
termination_by cs => sizeOf cs

end

/-- Strict lexicographic order on strings (`operator<` of `std::string`
    restricted to the words at hand). -/
def lexLt (a b : Str) : Prop := List.Lex (· < ·) a b

/-- Structural invariant of every trie reachable by `Trie::insert` from
    words that are fixed by case-folding: a terminal node stores exactly
    the path leading to it, and the child maps are strictly sorted. -/
inductive GoodNode : Str → TrieNode → Prop where
  | mk {path : Str} {e : Bool} {w : Str} {cs : List (Char × TrieNode)} :
      (e = true → w = path) →
      List.Pairwise (fun a b : Char × TrieNode => a.1 < b.1) cs →
      (∀ c t, (c, t) ∈ cs → GoodNode (path ++ [c]) t) →
      GoodNode path (.mk e w cs)

mutual

/-- `collect_words` is exactly: append to the accumulator the in-order
    subtree words, truncated to the remaining budget. -/
theorem collect_words_eq (node : TrieNode) (results : List Str) (max_count : Nat) :
    collect_words node results max_count =
      results ++ (nodeWords node).take (max_count - results.length) := by
  obtain ⟨e, w, cs⟩ := node
  rw [collect_words]
  by_cases h1 : max_count ≤ results.length
  · simp [h1, Nat.sub_eq_zero_of_le h1]
  · simp only [h1, if_false]
    by_cases he : e = true ∧ w ≠ []
    · rw [nodeWords, if_pos he]
      by_cases h2 : max_count ≤ (results ++ [w]).length
      · have hlen : max_count - results.length = 1 := by
          simp at h2
          omega
        rw [if_pos h2, if_pos he, hlen]
        simp
      · have hIH := collectChildren_eq cs (results ++ [w]) max_count
        rw [if_neg h2, hIH, if_pos he]
        have hlen : max_count - results.length = (max_count - (results ++ [w]).length) + 1 := by
          simp at h2 ⊢
          omega
        rw [hlen]
        simp [List.take_succ_cons]
    · simp only [he, if_neg, not_false_iff, nodeWords]
      simp only [h1, if_false]
      have hIH := collectChildren_eq cs results max_count
      rw [hIH]
      simp [he]
termination_by sizeOf node

theorem collectChildren_eq (cs : List (Char × TrieNode)) (results : List Str)
    (max_count : Nat) :
    collectChildren cs results max_count =
      results ++ (childrenWords cs).take (max_count - results.length) := by
  match cs with
  | [] => simp [collectChildren, childrenWords]
  | (c, t) :: rest =>
    rw [collectChildren]
    have hw := collect_words_eq t results max_count
    simp only [hw, childrenWords]
    by_cases h : max_count ≤ (results ++ (nodeWords t).take (max_count - results.length)).length
    · have hlen : (nodeWords t).length ≥ max_count - results.length := by
        simp [List.length_take] at h ⊢
        omega
      rw [if_pos h, List.take_append_eq_append_take]
      have : max_count - results.length - (nodeWords t).length = 0 := by omega
      rw [this]
      simp
    · rw [if_neg h]
      have hIH := collectChildren_eq rest
        (results ++ (nodeWords t).take (max_count - results.length)) max_count
      rw [hIH]
      have hlt : (nodeWords t).length < max_count - results.length := by
        simp [List.length_take] at h ⊢
        omega
      have htake : (nodeWords t).take (max_count - results.length) = nodeWords t :=
        List.take_of_length_le (le_of_lt hlt)
      rw [htake, List.take_append_eq_append_take, htake]
      have : max_count - (results ++ nodeWords t).length =
          max_count - results.length - (nodeWords t).length := by
        simp
        omega
      rw [this, List.append_assoc]
termination_by sizeOf cs

end

theorem lex_append_cons (p t : Str) (c : Char) : lexLt p (p ++ c :: t) := by
  induction p with
  | nil => exact List.Lex.nil
  | cons x xs ih => exact List.Lex.cons ih

theorem lex_of_middle_lt {c1 c2 : Char} (p t1 t2 : Str) (h : c1 < c2) :
    lexLt (p ++ c1 :: t1) (p ++ c2 :: t2) := by
  induction p with
  | nil => exact List.Lex.rel h
  | cons x xs ih => exact List.Lex.cons ih

theorem lex_of_proper_pre {p w : Str} (hpre : p <+: w) (hne : p ≠ w) : lexLt p w := by
  obtain ⟨t, rfl⟩ := hpre
  match t with
  | [] => simp at hne
  | c :: rest => exact lex_append_cons p rest c

theorem lex_of_key_lt_pre {p w1 w2 : Str} {c1 c2 : Char} (h : c1 < c2)
    (h1 : p ++ [c1] <+: w1) (h2 : p ++ [c2] <+: w2) : lexLt w1 w2 := by
  obtain ⟨t1, rfl⟩ := h1
  obtain ⟨t2, rfl⟩ := h2
  rw [List.append_assoc, List.append_assoc]
  exact lex_of_middle_lt p t1 t2 h

theorem childLookup_mem {cs : List (Char × TrieNode)} {c : Char} {t : TrieNode}
    (h : childLookup cs c = some t) : (c, t) ∈ cs := by
  induction cs with
  | nil => simp [childLookup] at h
  | cons hd rest ih =>
    obtain ⟨k, u⟩ := hd
    by_cases hk : k = c
    · subst hk
      simp [childLookup] at h
      subst h
      exact List.mem_cons_self _ _
    · simp [childLookup, hk] at h
      exact List.mem_cons_of_mem _ (ih h)

theorem childUpdate_sub {cs : List (Char × TrieNode)} {c : Char} {t : TrieNode} :
    ∀ q ∈ childUpdate cs c t, q = (c, t) ∨ q ∈ cs := by
  induction cs with
  | nil =>
    intro q hq
    simp [childUpdate] at hq
    exact Or.inl hq
  | cons hd rest ih =>
    obtain ⟨k, u⟩ := hd
    intro q hq
    rw [childUpdate] at hq
    by_cases h1 : c < k
    · rw [if_pos h1] at hq
      rcases List.mem_cons.1 hq with rfl | hq
      · exact Or.inl rfl
      · exact Or.inr hq
    · rw [if_neg h1] at hq
      by_cases h2 : c = k
      · rw [if_pos h2] at hq
        rcases List.mem_cons.1 hq with rfl | hq
        · exact Or.inl rfl
        · exact Or.inr (List.mem_cons_of_mem _ hq)
      · rw [if_neg h2] at hq
        rcases List.mem_cons.1 hq with rfl | hq
        · exact Or.inr (List.mem_cons_self _ _)
        · rcases ih q hq with h | h
          · exact Or.inl h
          · exact Or.inr (List.mem_cons_of_mem _ h)

theorem childUpdate_pairwise {cs : List (Char × TrieNode)} {c : Char} {t : TrieNode}
    (h : List.Pairwise (fun a b : Char × TrieNode => a.1 < b.1) cs) :
    List.Pairwise (fun a b : Char × TrieNode => a.1 < b.1) (childUpdate cs c t) := by
  induction cs with
  | nil => simp [childUpdate]
  | cons hd rest ih =>
    obtain ⟨k, u⟩ := hd
    rw [List.pairwise_cons] at h
    obtain ⟨hk, hrest⟩ := h
    rw [childUpdate]
    by_cases h1 : c < k
    · rw [if_pos h1]
      refine List.Pairwise.cons ?_ (List.Pairwise.cons hk hrest)
      intro b hb
      rcases List.mem_cons.1 hb with rfl | hb
      · exact h1
      · exact lt_trans h1 (hk b hb)
    · rw [if_neg h1]
      by_cases h2 : c = k
      · rw [if_pos h2]
        refine List.Pairwise.cons ?_ hrest
        intro b hb
        exact h2 ▸ hk b hb
      · rw [if_neg h2]
        have hkc : k < c := by
          rcases lt_trichotomy c k with h | h | h
          · exact absurd h h1
          · exact absurd h h2
          · exact h
        refine List.Pairwise.cons ?_ (ih hrest)
        intro b hb
        rcases childUpdate_sub b hb with rfl | hb
        · exact hkc
        · exact hk b hb

theorem insertGo_good {rest : Str} :
    ∀ {path : Str} {node : TrieNode} {w : Str},
    GoodNode path node → w = path ++ toLowerStr rest →
    GoodNode path (insertGo node rest w) := by
  induction rest with
  | nil =>
    intro path node w hg hw
    obtain ⟨e, w0, cs⟩ := node
    cases hg with
    | mk hend hpw hch =>
      rw [insertGo]
      refine GoodNode.mk ?_ hpw hch
      intro _
      simpa [toLowerStr] using hw
  | cons c cs ih =>
    intro path node w hg hw
    obtain ⟨e, w0, children⟩ := node
    cases hg with
    | mk hend hpw hch =>
      rw [insertGo]
      refine GoodNode.mk hend (childUpdate_pairwise hpw) ?_
      intro c0 t0 hmem
      rcases childUpdate_sub _ hmem with heq | hmem
      · obtain ⟨h1, h2⟩ := Prod.mk.injEq .. ▸ heq
        subst h1
        subst h2
        have hchild : GoodNode (path ++ [toLowerChar c])
            ((childLookup (TrieNode.mk e w0 children).children (toLowerChar c)).getD
              emptyTrieNode) := by
          cases hlk : childLookup (TrieNode.mk e w0 children).children (toLowerChar c) with
          | none =>
            refine GoodNode.mk ?_ ?_ ?_ <;> simp [emptyTrieNode]
          | some ch =>
            simpa using hch _ _ (childLookup_mem hlk)
        refine ih hchild ?_
        rw [hw]
        simp [toLowerStr]
      · exact hch c0 t0 hmem

theorem trieInsert_good {root : TrieNode} {w : Str} (hg : GoodNode [] root)
    (hw : toLowerStr w = w) : GoodNode [] (trieInsert root w) := by
  rw [trieInsert]
  by_cases h : w = []
  · simp [h, hg]
  · rw [if_neg h]
    exact insertGo_good hg (by rw [hw]; rfl)

theorem emptyTrieNode_good : GoodNode [] emptyTrieNode := by
  refine GoodNode.mk ?_ ?_ ?_ <;> simp [emptyTrieNode]

theorem buildTrie_good (ws : List Str) (h : ∀ w ∈ ws, toLowerStr w = w) :
    GoodNode [] (buildTrie ws) := by
  rw [buildTrie]
  suffices hgen : ∀ (root : TrieNode), GoodNode [] root →
      GoodNode [] (ws.foldl trieInsert root) from
    hgen emptyTrieNode emptyTrieNode_good
  induction ws with
  | nil =>
    intro root hg
    simpa using hg
  | cons x xs ih =>
    intro root hg
    rw [List.foldl_cons]
    exact ih (fun w hw => h w (List.mem_cons_of_mem _ hw)) _
      (trieInsert_good hg (h x (List.mem_cons_self _ _)))

/-- The word lists of a sorted child map concatenate to a strictly sorted
    list, given the per-child properties. -/
theorem childrenWords_of_props {path : Str} {cs : List (Char × TrieNode)}
    (hpw : List.Pairwise (fun a b : Char × TrieNode => a.1 < b.1) cs)
    (hprops : ∀ c t, (c, t) ∈ cs →
      (∀ w ∈ nodeWords t, (path ++ [c]) <+: w) ∧ List.Pairwise lexLt (nodeWords t)) :
    (∀ w ∈ childrenWords cs, ∃ c t, (c, t) ∈ cs ∧ (path ++ [c]) <+: w) ∧
    List.Pairwise lexLt (childrenWords cs) := by
  induction cs with
  | nil => simp [childrenWords]
  | cons hd rest ih =>
    obtain ⟨c, t⟩ := hd
    rw [List.pairwise_cons] at hpw
    obtain ⟨hk, hrest⟩ := hpw
    have hnw := hprops c t (List.mem_cons_self _ _)
    have hcw := ih hrest (fun c2 t2 h => hprops c2 t2 (List.mem_cons_of_mem _ h))
    rw [childrenWords]
    constructor
    · intro w hw
      rcases List.mem_append.1 hw with hw | hw
      · exact ⟨c, t, List.mem_cons_self _ _, hnw.1 w hw⟩
      · rcases hcw.1 w hw with ⟨c2, t2, hmem, hpre⟩
        exact ⟨c2, t2, List.mem_cons_of_mem _ hmem, hpre⟩
    · rw [List.pairwise_append]
      refine ⟨hnw.2, hcw.2, ?_⟩
      intro a ha b hb
      rcases hcw.1 b hb with ⟨c2, t2, hmem, hpre2⟩
      have hc2 : c < c2 := hk (c2, t2) hmem
      exact lex_of_key_lt_pre hc2 (hnw.1 a ha) hpre2

/-- Under the structural invariant, the in-order word list of the subtree
    at `path` consists of words extending `path`, strictly sorted
    lexicographically. -/
theorem nodeWords_good {path : Str} {node : TrieNode} (hg : GoodNode path node) :
    (∀ w ∈ nodeWords node, path <+: w) ∧ List.Pairwise lexLt (nodeWords node) := by
  induction hg with
  | @mk path e w0 cs hend hpw hch ih =>
    have hcw := childrenWords_of_props hpw (fun c t h => ih c t h)
    rw [nodeWords]
    by_cases hif : e = true ∧ w0 ≠ []
    · rw [if_pos hif]
      have hw0 : w0 = path := hend hif.1
      subst hw0
      constructor
      · intro w hw
        rcases List.mem_append.1 hw with hw | hw
        · simp at hw
          subst hw
          exact ⟨[], List.append_nil _⟩
        · rcases hcw.1 w hw with ⟨c, t, _, hpre⟩
          exact List.IsPrefix.trans ⟨_, rfl⟩ hpre
      · rw [List.pairwise_append]
        refine ⟨by simp, hcw.2, ?_⟩
        intro a ha b hb
        simp at ha
        subst ha
        rcases hcw.1 b hb with ⟨c, t, _, hpre⟩
        refine lex_of_proper_pre (List.IsPrefix.trans ⟨_, rfl⟩ hpre) ?_
        intro hcontra
        have hlen := hpre.length_le
        rw [← hcontra] at hlen
        simp at hlen
    · rw [if_neg hif]
      simp only [List.nil_append]
      constructor
      · intro w hw
        rcases hcw.1 w hw with ⟨c, t, _, hpre⟩
        exact List.IsPrefix.trans ⟨_, rfl⟩ hpre
      · exact hcw.2

theorem descend_good {p : Str} :
    ∀ {path : Str} {node m : TrieNode},
    GoodNode path node → descend node p = some m →
    GoodNode (path ++ toLowerStr p) m := by
  induction p with
  | nil =>
    intro path node m hg hd
    rw [descend] at hd
    cases hd
    simpa [toLowerStr] using hg
  | cons c cs ih =>
    intro path node m hg hd
    rw [descend] at hd
    cases hlk : childLookup node.children (toLowerChar c) with
    | none => rw [hlk] at hd; cases hd
    | some child =>
      rw [hlk] at hd
      obtain ⟨e, w0, children⟩ := node
      cases hg with
      | mk hend hpw hch =>
        have hchild : GoodNode (path ++ [toLowerChar c]) child :=
          hch _ _ (childLookup_mem hlk)
        have := ih hchild hd
        simpa [toLowerStr] using this

/-- C6: on a trie built from case-fold-invariant words (the lexicon terms),
    `autocomplete(p, k)` with `k > 0` returns at most `k` words, strictly
    sorted lexicographically, each having the case-folded prefix `p` as a
    prefix; and if the descent fails on some character of `p`, the empty
    sequence is returned. -/
theorem C6_autocomplete_sorted_pre_bounded (ws : List Str) (p : Str) (k : Int)
    (hws : ∀ w ∈ ws, toLowerStr w = w) (hk : 0 < k) :
    (trieAutocomplete (buildTrie ws) p k).length ≤ k.toNat ∧
    List.Pairwise lexLt (trieAutocomplete (buildTrie ws) p k) ∧
    (∀ w ∈ trieAutocomplete (buildTrie ws) p k, toLowerStr p <+: w) ∧
    (descend (buildTrie ws) p = none → trieAutocomplete (buildTrie ws) p k = []) := by
  have hroot := buildTrie_good ws hws
  rw [trieAutocomplete, if_neg (not_le.mpr hk)]
  cases hd : descend (buildTrie ws) p with
  | none => simp
  | some node =>
    have hg : GoodNode (toLowerStr p) node := by
      simpa using descend_good hroot hd
    have hwords := nodeWords_good hg
    dsimp only
    rw [collect_words_eq]
    simp only [List.nil_append, List.length_nil, Nat.sub_zero]
    refine ⟨?_, ?_, ?_, ?_⟩
    · exact List.length_take_le _ _
    · exact hwords.2.sublist (List.take_sublist _ _)
    · intro w hw
      exact hwords.1 w (List.mem_of_mem_take hw)
    · intro hcontra
      cases hcontra

/-- Witness for C6 on the lexicon `{data, database, datum, deep, dune}`
    with prefix `da` and budget 3. -/
theorem C6_autocomplete_sorted_pre_bounded_witness :
    (∀ w ∈ [String.toList "data", String.toList "database", String.toList "datum",
        String.toList "deep", String.toList "dune"], toLowerStr w = w) ∧
    (0 : Int) < 3 ∧
    ((trieAutocomplete (buildTrie [String.toList "data", String.toList "database",
        String.toList "datum", String.toList "deep", String.toList "dune"])
        (String.toList "da") 3).length ≤ (3 : Int).toNat ∧
      List.Pairwise lexLt (trieAutocomplete (buildTrie [String.toList "data",
        String.toList "database", String.toList "datum", String.toList "deep",
        String.toList "dune"]) (String.toList "da") 3) ∧
      (∀ w ∈ trieAutocomplete (buildTrie [String.toList "data", String.toList "database",
        String.toList "datum", String.toList "deep", String.toList "dune"])
        (String.toList "da") 3, toLowerStr (String.toList "da") <+: w) ∧
      (descend (buildTrie [String.toList "data", String.toList "database",
        String.toList "datum", String.toList "deep", String.toList "dune"])
        (String.toList "da") = none →
        trieAutocomplete (buildTrie [String.toList "data", String.toList "database",
          String.toList "datum", String.toList "deep", String.toList "dune"])
          (String.toList "da") 3 = [])) :=
  ⟨by decide, by decide,
    C6_autocomplete_sorted_pre_bounded _ _ _ (by decide) (by decide)⟩

/-! ## 4.B Barrel cache (`SearchService::get_barrel`, claim C7)

The cache `barrel_cache_` maps barrel ids to decoded JSON.  For the size
invariant only the key set matters; the cache is modelled as the list of
cached barrel ids in the iteration order of the `unordered_map`.  On a hit
nothing changes; on a miss, if the cache already holds 30 or more shards
the first 15 in iteration order are erased
(`barrel_cache_.erase(begin, begin+15)`), then the new shard is inserted. -/

/-- State transition of `barrel_cache_` performed by one call of
    `SearchService::get_barrel` (the decoded content is irrelevant to the
    cache-size invariant). -/
def getBarrelCacheStep (cache : List Int) (barrel_id : Int) : List Int :=
  if barrel_id ∈ cache then
    cache
  else
    (if 30 ≤ cache.length then cache.drop 15 else cache) ++ [barrel_id]

/-- C7: every call to `get_barrel` preserves `|cache| ≤ 30`; when the bound
    is reached before inserting a new shard, half of the 30 cached shards
    (the first 15 in iteration order) are evicted in a single sweep. -/
theorem C7_barrel_cache_bounded (cache : List Int) (barrel_id : Int)
    (hinv : cache.length ≤ 30) :
    (getBarrelCacheStep cache barrel_id).length ≤ 30 ∧
    (barrel_id ∉ cache → 30 ≤ cache.length →
      getBarrelCacheStep cache barrel_id = cache.drop 15 ++ [barrel_id]) := by
  constructor
  · unfold getBarrelCacheStep
    by_cases hmem : barrel_id ∈ cache
    · simp [hmem, hinv]
    · by_cases hfull : 30 ≤ cache.length
      · simp [hmem, hfull]
        omega
      · simp [hmem, hfull]
        omega
  · intro hmem hfull
    unfold getBarrelCacheStep
    simp [hmem, hfull]

/-- Witness for C7 at a concrete full cache of 30 shards. -/
theorem C7_barrel_cache_bounded_witness :
    ((List.range 30).map (Int.ofNat)).length ≤ 30 ∧
    (getBarrelCacheStep ((List.range 30).map (Int.ofNat)) 77).length ≤ 30 := by
  refine ⟨by decide, ?_⟩
  exact (C7_barrel_cache_bounded ((List.range 30).map (Int.ofNat)) 77 (by decide)).1

/-! ## Lexicon (`lexicon.cpp`, claim C9)

`std::unordered_map` is modelled as an association list in insertion
order; `operator[]`/`emplace` become `assocInsert`/`assocLookup`. -/

def assocLookup {α β : Type} [DecidableEq α] (m : List (α × β)) (k : α) : Option β :=
  match m with
  | [] => none
  | (a, b) :: rest => if a = k then some b else assocLookup rest k

def assocInsert {α β : Type} [DecidableEq α] (m : List (α × β)) (k : α) (v : β) :
    List (α × β) :=
  match m with
  | [] => [(k, v)]
  | (a, b) :: rest => if a = k then (a, v) :: rest else (a, b) :: assocInsert rest k v

/-- The built-in stop-word set (`Lexicon::load_default_stopwords`). -/
def default_stopwords : List Str :=
  ["the","a","an","and","or","but","in","on","at","to","for","of","with","by","from",
   "as","is","was","are","were","be","have","has","had","do","does","did","will","would",
   "should","could","may","might","must","can","this","that","these","those","i","you",
   "he","she","it","we","they","what","which","who","when","where","why","how","all",
   "each","every","both","few","more","most","other","some","such","no","not","only",
   "own","same","so","than","too","very","now","then","there","their","them","through",
   "under","until","up","use","using","via","year","years","your","yours"].map
    String.toList

/-- `Lexicon::is_significant_word`. -/
def is_significant_word (word : Str) : Bool :=
  if word = [] then false
  else
    let w := toLowerStr word
    if w ∈ default_stopwords then false
    else if w.length < 3 then false
    else if w.all isDigitChar then false
    else true

/-- Per-document token loop of `Lexicon::build_from_jsonl`: lowercase each
    token and count it once per document (`doc_set`). -/
def bumpCounts (m : List (Str × Int)) (w : Str) : List (Str × Int) :=
  match m with
  | [] => [(w, 1)]
  | (a, n) :: rest => if a = w then (a, n + 1) :: rest else (a, n) :: bumpCounts rest w

def processDoc (m : List (Str × Int)) (tokens : List Str) : List (Str × Int) :=
  (tokens.foldl
    (fun (acc : List (Str × Int) × List Str) tok =>
      let w := toLowerStr tok
      if w ∈ acc.2 then acc else (bumpCounts acc.1 w, w :: acc.2))
    (m, [])).1

/-- Document-frequency accumulation over all JSONL lines. -/
def word_frequencies (docs : List (List Str)) : List (Str × Int) :=
  docs.foldl processDoc []

/-- `std::string` comparison `operator<` (byte-lexicographic). -/
def strLtB : Str → Str → Bool
  | [], [] => false
  | [], _ :: _ => true
  | _ :: _, [] => false
  | a :: as, b :: bs => if a < b then true else if b < a then false else strLtB as bs

/-- The upper document-frequency cutoff of `Lexicon::build_from_jsonl`
    (`none` models `INT_MAX`, i.e. no cutoff). -/
def dfCutoff (freqs : List Int) (max_frequency_percentile : Int) : Option Int :=
  let sorted := freqs.insertionSort (· ≤ ·)
  if sorted.length > 0 ∧ max_frequency_percentile < 100 then
    let n := sorted.length
    let keep_count0 := n * max_frequency_percentile.toNat / 100
    let keep_count1 := if keep_count0 = 0 then 1 else keep_count0
    let keep_count := if keep_count1 > n then n else keep_count1
    some (sorted.getD (keep_count - 1) 0 + 1)
  else
    none

/-- The lexicon maps (`word_to_index_` / `index_to_word_`). -/
structure Lexicon where
  word_to_index : List (Str × Int)
  index_to_word : List Str

/-- Id assignment at the end of `Lexicon::build_from_jsonl`: survivors are
    sorted by word and numbered `0, 1, …`. -/
def assignIds (significant : List Str) : Lexicon :=
  { word_to_index :=
      significant.enum.foldl (fun m p => assocInsert m p.2 (Int.ofNat p.1)) []
    index_to_word := significant }

/-- `Lexicon::build_from_jsonl` (the JSONL parsing is abstracted into the
    per-line token lists `docs`; file output is dropped). -/
def build_from_jsonl (docs : List (List Str)) (min_frequency max_frequency_percentile : Int) :
    Lexicon :=
  let wf := word_frequencies docs
  let cutoff := dfCutoff (wf.map Prod.snd) max_frequency_percentile
  let significant := wf.filter (fun p =>
    is_significant_word p.1 &&
    ! decide (p.2 < min_frequency) &&
    (match cutoff with
     | none => true
     | some mf => decide (p.2 < mf)))
  let sorted := significant.insertionSort (fun a b => strLtB a.1 b.1 = true)
  assignIds (sorted.map Prod.fst)

/-- `Lexicon::get_word_index` (returns the sentinel `-1` when absent). -/
def get_word_index (lex : Lexicon) (word : Str) : Int :=
  match assocLookup lex.word_to_index (toLowerStr word) with
  | none => -1
  | some i => i

/-- `Lexicon::get_word` (returns `""` when out of range). -/
def get_word (lex : Lexicon) (index : Int) : Str :=
  if index < 0 ∨ (lex.index_to_word.length : Int) ≤ index then []
  else lex.index_to_word.getD index.toNat []

theorem assocLookup_mem {α β : Type} [DecidableEq α] {m : List (α × β)} {k : α} {v : β}
    (h : assocLookup m k = some v) : (k, v) ∈ m := by
  induction m with
  | nil => simp [assocLookup] at h
  | cons hd rest ih =>
    obtain ⟨a, b⟩ := hd
    by_cases ha : a = k
    · subst ha
      simp [assocLookup] at h
      subst h
      exact List.mem_cons_self _ _
    · simp [assocLookup, ha] at h
      exact List.mem_cons_of_mem _ (ih h)

theorem assocInsert_sub {α β : Type} [DecidableEq α] {m : List (α × β)} {k : α} {v : β} :
    ∀ q ∈ assocInsert m k v, q = (k, v) ∨ q ∈ m := by
  induction m with
  | nil =>
    intro q hq
    simp [assocInsert] at hq
    exact Or.inl hq
  | cons hd rest ih =>
    obtain ⟨a, b⟩ := hd
    intro q hq
    rw [assocInsert] at hq
    by_cases ha : a = k
    · subst ha
      rw [if_pos rfl] at hq
      rcases List.mem_cons.1 hq with rfl | hq
      · exact Or.inl rfl
      · exact Or.inr (List.mem_cons_of_mem _ hq)
    · rw [if_neg ha] at hq
      rcases List.mem_cons.1 hq with rfl | hq
      · exact Or.inr (List.mem_cons_self _ _)
      · rcases ih q hq with h | h
        · exact Or.inl h
        · exact Or.inr (List.mem_cons_of_mem _ h)

theorem assignIds_entries {significant : List Str} :
    ∀ q ∈ (assignIds significant).word_to_index,
      ∃ i : Nat, q.2 = Int.ofNat i ∧ significant[i]? = some q.1 := by
  rw [assignIds]
  suffices hgen : ∀ (ps : List (Nat × Str)) (m0 : List (Str × Int)),
      ∀ q ∈ ps.foldl (fun m p => assocInsert m p.2 (Int.ofNat p.1)) m0,
        q ∈ m0 ∨ ∃ p ∈ ps, q = (p.2, Int.ofNat p.1) by
    intro q hq
    rcases hgen significant.enum [] q hq with h | ⟨p, hp, rfl⟩
    · simp at h
    · obtain ⟨i, w⟩ := p
      refine ⟨i, rfl, ?_⟩
      exact List.mk_mem_enum_iff_getElem?.1 hp
  intro ps
  induction ps with
  | nil =>
    intro m0 q hq
    exact Or.inl hq
  | cons p rest ih =>
    intro m0 q hq
    rw [List.foldl_cons] at hq
    rcases ih _ q hq with h | ⟨p2, hp2, rfl⟩
    · rcases assocInsert_sub q h with rfl | h
      · exact Or.inr ⟨p, List.mem_cons_self _ _, rfl⟩
      · exact Or.inl h
    · exact Or.inr ⟨p2, List.mem_cons_of_mem _ hp2, rfl⟩

/-- Keys of the document-frequency map are case-fold-invariant. -/
theorem word_frequencies_keys_lower (docs : List (List Str)) :
    ∀ q ∈ word_frequencies docs, toLowerStr q.1 = q.1 := by
  have hbump : ∀ (m : List (Str × Int)) (w : Str), toLowerStr w = w →
      (∀ q ∈ m, toLowerStr q.1 = q.1) → ∀ q ∈ bumpCounts m w, toLowerStr q.1 = q.1 := by
    intro m w hw
    induction m with
    | nil =>
      intro _ q hq
      simp [bumpCounts] at hq
      subst hq
      exact hw
    | cons hd rest ih =>
      obtain ⟨a, n⟩ := hd
      intro hm q hq
      rw [bumpCounts] at hq
      by_cases ha : a = w
      · rw [if_pos ha] at hq
        rcases List.mem_cons.1 hq with rfl | hq
        · exact hm (a, n) (List.mem_cons_self _ _)
        · exact hm q (List.mem_cons_of_mem _ hq)
      · rw [if_neg ha] at hq
        rcases List.mem_cons.1 hq with rfl | hq
        · exact hm (a, n) (List.mem_cons_self _ _)
        · exact ih (fun q2 h2 => hm q2 (List.mem_cons_of_mem _ h2)) q hq
  have hproc : ∀ (tokens : List Str) (acc : List (Str × Int) × List Str),
      (∀ q ∈ acc.1, toLowerStr q.1 = q.1) →
      ∀ q ∈ (tokens.foldl
        (fun (acc : List (Str × Int) × List Str) tok =>
          let w := toLowerStr tok
          if w ∈ acc.2 then acc else (bumpCounts acc.1 w, w :: acc.2)) acc).1,
        toLowerStr q.1 = q.1 := by
    intro tokens
    induction tokens with
    | nil =>
      intro acc hacc q hq
      exact hacc q hq
    | cons tok rest ih =>
      intro acc hacc q hq
      rw [List.foldl_cons] at hq
      by_cases hmem : toLowerStr tok ∈ acc.2
      · refine ih acc ?_ q (by simpa [hmem] using hq)
        exact hacc
      · refine ih _ ?_ q (by simpa [hmem] using hq)
        exact hbump acc.1 (toLowerStr tok) (toLowerStr_idem tok) hacc
  rw [word_frequencies]
  suffices hgen : ∀ (ds : List (List Str)) (m0 : List (Str × Int)),
      (∀ q ∈ m0, toLowerStr q.1 = q.1) →
      ∀ q ∈ ds.foldl processDoc m0, toLowerStr q.1 = q.1 by
    exact hgen docs [] (by simp)
  intro ds
  induction ds with
  | nil =>
    intro m0 hm0 q hq
    exact hm0 q hq
  | cons d rest ih =>
    intro m0 hm0 q hq
    rw [List.foldl_cons] at hq
    exact ih _ (fun q2 h2 => hproc d (m0, []) hm0 q2 h2) q hq

/-- Every word with an id in a built lexicon is case-fold-invariant and is
    stored at its own index in `index_to_word_`. -/
theorem built_lexicon_inverse (docs : List (List Str))
    (min_frequency max_frequency_percentile : Int) :
    ∀ q ∈ (build_from_jsonl docs min_frequency max_frequency_percentile).word_to_index,
      toLowerStr q.1 = q.1 ∧ 0 ≤ q.2 ∧
      q.2 < ((build_from_jsonl docs min_frequency
        max_frequency_percentile).index_to_word.length : Int) ∧
      (build_from_jsonl docs min_frequency
        max_frequency_percentile).index_to_word.getD q.2.toNat [] = q.1 := by
  intro q hq
  have hent := assignIds_entries q hq
  obtain ⟨i, hi, hget⟩ := hent
  have hlen : i < ((build_from_jsonl docs min_frequency
      max_frequency_percentile).index_to_word).length := by
    have := List.getElem?_eq_some.mp hget
    exact this.1
  have hkeylow : toLowerStr q.1 = q.1 := by
    have hmem : q.1 ∈ (build_from_jsonl docs min_frequency
        max_frequency_percentile).index_to_word := by
      have := List.getElem?_eq_some.mp hget
      obtain ⟨hlt, heq⟩ := this
      rw [← heq]
      exact List.getElem_mem _
    rw [build_from_jsonl] at hmem
    simp only [assignIds] at hmem
    rcases List.mem_map.1 hmem with ⟨p, hp, hpe⟩
    have hp2 : p ∈ (word_frequencies docs).filter _ :=
      (List.perm_insertionSort _ _).subset hp
    rw [← hpe]
    exact word_frequencies_keys_lower docs p (List.mem_of_mem_filter hp2)
  refine ⟨hkeylow, ?_, ?_, ?_⟩
  · rw [hi]
    exact Int.ofNat_nonneg i
  · rw [hi]
    exact Int.ofNat_lt.mpr hlen
  · rw [hi]
    have htn : (Int.ofNat i).toNat = i := rfl
    rw [htn]
    have hidx : (build_from_jsonl docs min_frequency
        max_frequency_percentile).index_to_word[i]? = some q.1 := by
      simp only [build_from_jsonl, assignIds]
      exact hget
    simp [List.getD, hidx]

/-- C9: in a built lexicon, every term `t` holding an assigned id satisfies
    `get_word(get_word_index(t)) = t`. -/
theorem C9_lexicon_term_roundtrip (docs : List (List Str))
    (min_frequency max_frequency_percentile : Int) (t : Str)
    (hpresent : ∃ i, assocLookup (build_from_jsonl docs min_frequency
      max_frequency_percentile).word_to_index t = some i) :
    get_word (build_from_jsonl docs min_frequency max_frequency_percentile)
      (get_word_index (build_from_jsonl docs min_frequency max_frequency_percentile) t) =
      t := by
  obtain ⟨i, hi⟩ := hpresent
  have hmem := assocLookup_mem hi
  have hprops := built_lexicon_inverse docs min_frequency max_frequency_percentile (t, i) hmem
  obtain ⟨hlow, hnonneg, hlt, hget⟩ := hprops
  rw [get_word_index, hlow, hi, get_word, if_neg (by push_neg; exact ⟨hnonneg, hlt⟩)]
  exact hget

/-- Witness for C9 on a two-document corpus and the term `quick`. -/
theorem C9_lexicon_term_roundtrip_witness :
    (∃ i, assocLookup (build_from_jsonl
      [["the", "quick", "brown", "fox"].map String.toList,
       ["a", "quick", "brown", "dog"].map String.toList] 1 100).word_to_index
      (String.toList "quick") = some i) ∧
    get_word (build_from_jsonl
      [["the", "quick", "brown", "fox"].map String.toList,
       ["a", "quick", "brown", "dog"].map String.toList] 1 100)
      (get_word_index (build_from_jsonl
        [["the", "quick", "brown", "fox"].map String.toList,
         ["a", "quick", "brown", "dog"].map String.toList] 1 100)
        (String.toList "quick")) = String.toList "quick" :=
  ⟨⟨3, by decide⟩, C9_lexicon_term_roundtrip _ _ _ _ ⟨3, by decide⟩⟩

/-! ## Doc-stats binary cache (claim C8)

`SearchService::build_doc_stats_cache` (write part, lines 199-213) and
`SearchService::load_doc_stats_from_cache`.  The file is modelled as a list
of bytes (`Nat` values < 256); `int`/`uint32_t` are written little-endian,
two's complement. -/

/-- Per-document statistics (`DocStats`). -/
structure DocStats where
  doc_length : Int
  title_frequencies : List (Int × Int)
deriving DecidableEq

/-- A signed value fits in 32 bits. -/
def intIn32 (z : Int) : Prop := -(2 ^ 31) ≤ z ∧ z < 2 ^ 31

instance (z : Int) : Decidable (intIn32 z) := by
  unfold intIn32
  infer_instance

/-- Little-endian bytes of a `uint32_t` (the cast truncates mod `2^32`). -/
def u32Bytes (n : Nat) : List Nat :=
  [n % 256, n / 256 % 256, n / 65536 % 256, n / 16777216 % 256]

/-- Little-endian bytes of an `int` (two's complement). -/
def i32Bytes (z : Int) : List Nat := u32Bytes (z % 2 ^ 32).toNat

/-- `f.read` of a `uint32_t`; `none` models a failed (short) read. -/
def readU32 (bytes : List Nat) : Option (Nat × List Nat) :=
  match bytes with
  | b0 :: b1 :: b2 :: b3 :: rest =>
    some (b0 + 256 * b1 + 65536 * b2 + 16777216 * b3, rest)
  | _ => none

/-- `f.read` of an `int` (two's complement decode). -/
def readI32 (bytes : List Nat) : Option (Int × List Nat) :=
  match readU32 bytes with
  | none => none
  | some (u, rest) =>
    some (if u < 2 ^ 31 then (u : Int) else (u : Int) - 2 ^ 32, rest)

/-- Byte encoding of one `(word_id, freq)` pair. -/
def encFreq (p : Int × Int) : List Nat := i32Bytes p.1 ++ i32Bytes p.2

/-- Byte encoding of one document record. -/
def encDoc (q : Int × DocStats) : List Nat :=
  i32Bytes q.1 ++ i32Bytes q.2.doc_length ++ u32Bytes q.2.title_frequencies.length ++
  q.2.title_frequencies.flatMap encFreq

/-- The bytes written by `SearchService::build_doc_stats_cache` for the
    in-memory map `m` (iteration order of `doc_stats_cache_`). -/
def build_doc_stats_cache_bytes (m : List (Int × DocStats)) : List Nat :=
  u32Bytes m.length ++ m.flatMap encDoc

/-- The title-frequency reading loop of `load_doc_stats_from_cache`. -/
def loadFreqsLoop : Nat → List Nat → List (Int × Int) →
    Option (List (Int × Int) × List Nat)
  | 0, bytes, acc => some (acc, bytes)
  | Nat.succ j, bytes, acc =>
    match readI32 bytes with
    | none => none
    | some (word_id, r1) =>
      match readI32 r1 with
      | none => none
      | some (freq, r2) => loadFreqsLoop j r2 (assocInsert acc word_id freq)

/-- The per-document reading loop of `load_doc_stats_from_cache`. -/
def loadDocsLoop : Nat → List Nat → List (Int × DocStats) →
    Option (List (Int × DocStats))
  | 0, _, acc => some acc
  | Nat.succ j, bytes, acc =>
    match readI32 bytes with
    | none => none
    | some (doc_id, r1) =>
      match readI32 r1 with
      | none => none
      | some (doc_length, r2) =>
        match readU32 r2 with
        | none => none
        | some (num_title_freqs, r3) =>
          match loadFreqsLoop num_title_freqs r3 [] with
          | none => none
          | some (tfs, r4) =>
            loadDocsLoop j r4 (assocInsert acc doc_id ⟨doc_length, tfs⟩)

/-- `SearchService::load_doc_stats_from_cache` (`none` models `false`:
    missing file, failed read, or the `num_docs` sanity check). -/
def load_doc_stats_from_cache (bytes : List Nat) : Option (List (Int × DocStats)) :=
  match readU32 bytes with
  | none => none
  | some (num_docs, rest) =>
    if num_docs = 0 ∨ 10000000 < num_docs then none
    else loadDocsLoop num_docs rest []

theorem readU32_u32Bytes (n : Nat) (h : n < 2 ^ 32) (rest : List Nat) :
    readU32 (u32Bytes n ++ rest) = some (n, rest) := by
  simp only [u32Bytes, readU32, List.cons_append, List.nil_append]
  congr 1
  congr 1
  omega

theorem readI32_i32Bytes (z : Int) (h : intIn32 z) (rest : List Nat) :
    readI32 (i32Bytes z ++ rest) = some (z, rest) := by
  obtain ⟨h1, h2⟩ := h
  have h0 : (0 : Int) ≤ z % 2 ^ 32 := Int.emod_nonneg z (by norm_num)
  have hlt : z % 2 ^ 32 < 2 ^ 32 := Int.emod_lt_of_pos z (by norm_num)
  have hcast : ((z % 2 ^ 32).toNat : Int) = z % 2 ^ 32 := Int.toNat_of_nonneg h0
  rw [readI32, i32Bytes, readU32_u32Bytes _ (by omega)]
  dsimp only
  have hval : (if (z % 2 ^ 32).toNat < 2 ^ 31 then ((z % 2 ^ 32).toNat : Int)
      else ((z % 2 ^ 32).toNat : Int) - 2 ^ 32) = z := by
    split
    · omega
    · omega
  rw [hval]

theorem assocInsert_append {α β : Type} [DecidableEq α] {m : List (α × β)} {k : α} {v : β}
    (h : k ∉ m.map Prod.fst) : assocInsert m k v = m ++ [(k, v)] := by
  induction m with
  | nil => rfl
  | cons hd rest ih =>
    obtain ⟨a, b⟩ := hd
    simp only [List.map_cons, List.mem_cons] at h
    push_neg at h
    rw [assocInsert, if_neg (fun hcontra => h.1 hcontra.symm)]
    rw [ih h.2]
    simp

theorem loadFreqsLoop_roundtrip (tfs : List (Int × Int)) :
    ∀ (rest : List Nat) (acc : List (Int × Int)),
    (∀ p ∈ tfs, p.1 ∉ acc.map Prod.fst) →
    (tfs.map Prod.fst).Nodup →
    (∀ p ∈ tfs, intIn32 p.1 ∧ intIn32 p.2) →
    loadFreqsLoop tfs.length (tfs.flatMap encFreq ++ rest) acc = some (acc ++ tfs, rest) := by
  induction tfs with
  | nil =>
    intro rest acc _ _ _
    simp [loadFreqsLoop]
  | cons p t ih =>
    intro rest acc hdisj hnodup hr
    obtain ⟨w, f⟩ := p
    have hwr := hr (w, f) (List.mem_cons_self _ _)
    rw [List.length_cons, List.flatMap_cons, loadFreqsLoop, encFreq]
    simp only [List.append_assoc]
    rw [readI32_i32Bytes _ hwr.1]
    dsimp only
    rw [readI32_i32Bytes _ hwr.2]
    dsimp only
    rw [assocInsert_append (hdisj (w, f) (List.mem_cons_self _ _))]
    rw [List.map_cons, List.nodup_cons] at hnodup
    have := ih rest (acc ++ [(w, f)])
      (by
        intro q hq
        simp only [List.map_append, List.mem_append]
        push_neg
        refine ⟨fun hcontra => hdisj q (List.mem_cons_of_mem _ hq) hcontra, ?_⟩
        simp only [List.map_cons, List.map_nil, List.mem_singleton]
        intro hcontra
        apply hnodup.1
        rw [← hcontra]
        exact List.mem_map.2 ⟨q, hq, rfl⟩)
      hnodup.2
      (fun q hq => hr q (List.mem_cons_of_mem _ hq))
    rw [this]
    simp

theorem loadDocsLoop_roundtrip (docs : List (Int × DocStats)) :
    ∀ (rest : List Nat) (acc : List (Int × DocStats)),
    (∀ q ∈ docs, q.1 ∉ acc.map Prod.fst) →
    (docs.map Prod.fst).Nodup →
    (∀ q ∈ docs, intIn32 q.1 ∧ intIn32 q.2.doc_length ∧
      (q.2.title_frequencies.map Prod.fst).Nodup ∧
      q.2.title_frequencies.length < 2 ^ 32 ∧
      ∀ p ∈ q.2.title_frequencies, intIn32 p.1 ∧ intIn32 p.2) →
    loadDocsLoop docs.length (docs.flatMap encDoc ++ rest) acc = some (acc ++ docs) := by
  induction docs with
  | nil =>
    intro rest acc _ _ _
    simp [loadDocsLoop]
  | cons q t ih =>
    intro rest acc hdisj hnodup hr
    obtain ⟨d, stats⟩ := q
    obtain ⟨len, tfs⟩ := stats
    have hq := hr (d, DocStats.mk len tfs) (List.mem_cons_self _ _)
    rw [List.length_cons, List.flatMap_cons, loadDocsLoop, encDoc]
    simp only [List.append_assoc]
    rw [readI32_i32Bytes _ hq.1]
    dsimp only
    rw [readI32_i32Bytes _ hq.2.1]
    dsimp only
    rw [readU32_u32Bytes _ hq.2.2.2.1]
    dsimp only
    rw [loadFreqsLoop_roundtrip _ _ [] (by simp) hq.2.2.1 hq.2.2.2.2]
    dsimp only
    simp only [List.nil_append]
    rw [assocInsert_append (hdisj (d, DocStats.mk len tfs) (List.mem_cons_self _ _))]
    rw [List.map_cons, List.nodup_cons] at hnodup
    have := ih rest (acc ++ [(d, DocStats.mk len tfs)])
      (by
        intro q2 hq2
        simp only [List.map_append, List.mem_append]
        push_neg
        refine ⟨fun hcontra => hdisj q2 (List.mem_cons_of_mem _ hq2) hcontra, ?_⟩
        simp only [List.map_cons, List.map_nil, List.mem_singleton]
        intro hcontra
        apply hnodup.1
        rw [← hcontra]
        exact List.mem_map.2 ⟨q2, hq2, rfl⟩)
      hnodup.2
      (fun q2 hq2 => hr q2 (List.mem_cons_of_mem _ hq2))
    rw [this]
    simp

/-- C8 counterexample: the empty doc-stats map does not survive the round
    trip: the loader rejects `num_docs == 0` (`return false`), so the cache
    is declared invalid instead of reconstructing the empty map. -/
theorem C8_roundtrip_counterexample :
    load_doc_stats_from_cache (build_doc_stats_cache_bytes []) = none ∧
    load_doc_stats_from_cache (build_doc_stats_cache_bytes []) ≠
      some ([] : List (Int × DocStats)) := by
  constructor
  · rfl
  · intro h
    cases h

/-- C8 (amended): for every nonempty doc-stats map with at most `10^7`
    documents, duplicate-free keys, and all fields in `int` range, writing
    the binary cache and reading it back reconstructs the identical map. -/
theorem C8_doc_stats_roundtrip (m : List (Int × DocStats))
    (hne : m ≠ [])
    (hcount : m.length ≤ 10000000)
    (hkeys : (m.map Prod.fst).Nodup)
    (hranges : ∀ q ∈ m, intIn32 q.1 ∧ intIn32 q.2.doc_length ∧
      (q.2.title_frequencies.map Prod.fst).Nodup ∧
      q.2.title_frequencies.length < 2 ^ 32 ∧
      ∀ p ∈ q.2.title_frequencies, intIn32 p.1 ∧ intIn32 p.2) :
    load_doc_stats_from_cache (build_doc_stats_cache_bytes m) = some m := by
  rw [load_doc_stats_from_cache, build_doc_stats_cache_bytes]
  rw [readU32_u32Bytes _ (by omega)]
  dsimp only
  have hguard : ¬ (m.length = 0 ∨ 10000000 < m.length) := by
    push_neg
    exact ⟨fun h => hne (List.length_eq_zero.1 h), hcount⟩
  rw [if_neg hguard]
  have := loadDocsLoop_roundtrip m [] [] (by simp) hkeys hranges
  simpa using this

/-- Witness for the amended C8 at a concrete two-document map. -/
theorem C8_doc_stats_roundtrip_witness :
    load_doc_stats_from_cache (build_doc_stats_cache_bytes
      [(5, ⟨12, [(3, 2), (7, 1)]⟩), (9, ⟨4, []⟩)]) =
      some [(5, ⟨12, [(3, 2), (7, 1)]⟩), (9, ⟨4, []⟩)] :=
  C8_doc_stats_roundtrip _ (by decide) (by decide) (by decide) (by decide)

/-! ## Delta merge (`InvertedIndexBuilder::merge_delta_to_main`, claim C3)

The delta file and each barrel file are JSON objects mapping word-id keys
to posting arrays; both are modelled as association lists with `Int` keys
(JSON object keys are unique).  A posting is `[doc_id, frequency,
positions]`. -/

/-- One posting as stored in a barrel / the delta (`DeltaEntry`). -/
structure DeltaEntry where
  doc_id : Int
  frequency : Int
  positions : List Int
deriving DecidableEq

/-- `InvertedIndexBuilder::get_barrel_id`. -/
def get_barrel_id (word_id total_barrels : Int) : Int := word_id % total_barrels

/-- The inner update loop of `merge_delta_to_main` on one barrel：for each
    delta word, append its entries to the existing posting list
    (`main_barrel[w_id].push_back(e)`), or install the list when the word
    is absent.  No doc_id is inspected. -/
def mergeBarrelUpdates (main : List (Int × List DeltaEntry))
    (updates : List (Int × List DeltaEntry)) : List (Int × List DeltaEntry) :=
  updates.foldl (fun mb p =>
    match assocLookup mb p.1 with
    | some existing => assocInsert mb p.1 (existing ++ p.2)
    | none => assocInsert mb p.1 p.2) main

/-- `InvertedIndexBuilder::merge_delta_to_main`: every delta posting list is
    merged into the barrel of its word id, and the delta file is reset to
    the empty object.  Returns (barrel files after, delta file after). -/
def merge_delta_to_main (barrels : Int → List (Int × List DeltaEntry))
    (delta : List (Int × List DeltaEntry)) (total_barrels : Int) :
    (Int → List (Int × List DeltaEntry)) × List (Int × List DeltaEntry) :=
  ((fun b =>
      mergeBarrelUpdates (barrels b)
        (delta.filter (fun p => get_barrel_id p.1 total_barrels = b))),
   [])

/-- A posting list with no duplicate doc_id (data-model invariant). -/
def dupFreePostings (l : List DeltaEntry) : Prop := (l.map DeltaEntry.doc_id).Nodup

instance (l : List DeltaEntry) : Decidable (dupFreePostings l) := by
  unfold dupFreePostings
  infer_instance

theorem assocLookup_assocInsert_self {α β : Type} [DecidableEq α]
    (m : List (α × β)) (k : α) (v : β) :
    assocLookup (assocInsert m k v) k = some v := by
  induction m with
  | nil => simp [assocInsert, assocLookup]
  | cons hd rest ih =>
    obtain ⟨a, b⟩ := hd
    by_cases ha : a = k
    · simp [assocInsert, assocLookup, ha]
    · simp [assocInsert, assocLookup, ha, ih]

theorem assocLookup_assocInsert_other {α β : Type} [DecidableEq α]
    (m : List (α × β)) (k t : α) (v : β) (h : k ≠ t) :
    assocLookup (assocInsert m k v) t = assocLookup m t := by
  induction m with
  | nil => simp [assocInsert, assocLookup, h]
  | cons hd rest ih =>
    obtain ⟨a, b⟩ := hd
    by_cases ha : a = k
    · subst ha
      simp [assocInsert, assocLookup, h]
    · simp [assocInsert, assocLookup, ha, ih]

theorem mergeBarrelUpdates_lookup (updates : List (Int × List DeltaEntry)) :
    ∀ (main : List (Int × List DeltaEntry)),
    ((updates.map Prod.fst).Nodup) →
    ∀ t, assocLookup (mergeBarrelUpdates main updates) t =
      match assocLookup updates t with
      | some es => some ((assocLookup main t).getD [] ++ es)
      | none => assocLookup main t := by
  induction updates with
  | nil =>
    intro main _ t
    simp [mergeBarrelUpdates, assocLookup]
  | cons p rest ih =>
    intro main hnd t
    obtain ⟨w, es⟩ := p
    rw [List.map_cons, List.nodup_cons] at hnd
    have hstep : mergeBarrelUpdates main ((w, es) :: rest) =
        mergeBarrelUpdates (assocInsert main w ((assocLookup main w).getD [] ++ es)) rest := by
      rw [mergeBarrelUpdates, List.foldl_cons, ← mergeBarrelUpdates]
      cases hlk : assocLookup main w with
      | none => simp [hlk]
      | some existing => simp [hlk]
    rw [hstep, ih _ hnd.2 t]
    by_cases hwt : w = t
    · subst hwt
      have hrest : assocLookup rest w = none := by
        cases hr : assocLookup rest w with
        | none => rfl
        | some es2 =>
          exact absurd (List.mem_map.2 ⟨(w, es2), assocLookup_mem hr, rfl⟩) hnd.1
      rw [hrest]
      simp [assocLookup, assocLookup_assocInsert_self]
    · have hupd : assocLookup ((w, es) :: rest) t = assocLookup rest t := by
        simp [assocLookup, hwt]
      rw [hupd, assocLookup_assocInsert_other _ _ _ _ hwt]

theorem assocLookup_filter {p : Int × List DeltaEntry → Bool}
    {delta : List (Int × List DeltaEntry)} {t : Int} {es : List DeltaEntry}
    (h : assocLookup delta t = some es) (hp : p (t, es) = true) :
    assocLookup (delta.filter p) t = some es := by
  induction delta with
  | nil => simp [assocLookup] at h
  | cons hd rest ih =>
    obtain ⟨a, b⟩ := hd
    by_cases ha : a = t
    · subst ha
      simp only [assocLookup, if_pos rfl] at h
      cases h
      rw [List.filter_cons, if_pos hp]
      simp [assocLookup]
    · simp only [assocLookup, if_neg ha] at h
      rw [List.filter_cons]
      by_cases hpb : p (a, b) = true
      · rw [if_pos hpb]
        simp only [assocLookup, if_neg ha]
        exact ih h
      · rw [if_neg hpb]
        exact ih h

theorem filter_keys_nodup {p : Int × List DeltaEntry → Bool}
    {delta : List (Int × List DeltaEntry)}
    (h : (delta.map Prod.fst).Nodup) : ((delta.filter p).map Prod.fst).Nodup :=
  h.sublist (List.Sublist.map _ (List.filter_sublist _))

/-- C3 counterexample: the merge performs no duplicate check.  With the
    posting `(doc 1)` for word 0 present in both main barrel 0 and the
    delta (a violation of I1, which per the claim must be skipped with a
    warning), merging appends it anyway, creating a duplicate
    `(term 0, doc 1)` posting in the main barrel. -/
theorem C3_merge_counterexample :
    dupFreePostings [DeltaEntry.mk 1 2 []] ∧
    assocLookup
      ((merge_delta_to_main
        (fun b => if b = 0 then [(0, [DeltaEntry.mk 1 2 []])] else [])
        [(0, [DeltaEntry.mk 1 2 []])] 100).1 0) 0 =
      some [DeltaEntry.mk 1 2 [], DeltaEntry.mk 1 2 []] ∧
    ¬ dupFreePostings [DeltaEntry.mk 1 2 [], DeltaEntry.mk 1 2 []] := by
  refine ⟨?_, ?_, ?_⟩
  · decide
  · rfl
  · decide

/-- C3 (amended): `merge_delta_to_main` appends every delta posting list to
    the main barrel list of its word id unconditionally (no duplicate
    check, no skip, no warning), and on success resets the delta file to
    the empty object.  (No in-memory delta map exists in this routine; the
    search service clears its copy separately via `reload_delta_index`.) -/
theorem C3_merge_appends_all (barrels : Int → List (Int × List DeltaEntry))
    (delta : List (Int × List DeltaEntry)) (total_barrels : Int)
    (hnd : (delta.map Prod.fst).Nodup) :
    (∀ t es, assocLookup delta t = some es →
      assocLookup ((merge_delta_to_main barrels delta total_barrels).1
          (get_barrel_id t total_barrels)) t =
        some ((assocLookup (barrels (get_barrel_id t total_barrels)) t).getD [] ++ es)) ∧
    (merge_delta_to_main barrels delta total_barrels).2 = [] := by
  constructor
  · intro t es h
    rw [merge_delta_to_main]
    dsimp only
    rw [mergeBarrelUpdates_lookup _ _ (filter_keys_nodup hnd) t]
    rw [assocLookup_filter h (by simp)]
  · rfl

/-- Witness for the amended C3: a delta posting for word 7 lands appended
    after the existing main postings of barrel `7 % 100`. -/
theorem C3_merge_appends_all_witness :
    (([((7 : Int), [DeltaEntry.mk 3 1 [0]])].map Prod.fst).Nodup) ∧
    assocLookup ((merge_delta_to_main
        (fun b => if b = 7 then [(7, [DeltaEntry.mk 2 5 [1]])] else [])
        [(7, [DeltaEntry.mk 3 1 [0]])] 100).1 (get_barrel_id 7 100)) 7 =
      some ((assocLookup ((fun b => if b = (7 : Int) then
          [((7 : Int), [DeltaEntry.mk 2 5 [1]])] else []) (get_barrel_id 7 100)) 7).getD []
        ++ [DeltaEntry.mk 3 1 [0]]) :=
  ⟨by decide,
    (C3_merge_appends_all
      (fun b => if b = 7 then [(7, [DeltaEntry.mk 2 5 [1]])] else [])
      [(7, [DeltaEntry.mk 3 1 [0]])] 100 (by decide)).1 7 [DeltaEntry.mk 3 1 [0]]
      (by decide)⟩

/-! ## Batch index writer (`BatchIndexWriter.cpp`, claim C2)

`update_indices` mutates six persisted files in sequence.  The file system
is a record of file contents; an I/O failure is injected through a
`FailSpec` naming the operations the code can actually detect failing
(`throw` sites: opening `forward_index.jsonl`, opening the delta temp
file, writing the delta temp file).  A thrown exception is caught in
`flush_batch`, which then skips the statistics update (documents are not
marked indexed). -/

/-- `WordStats` (`forward_index.hpp`). -/
structure WordStats where
  title_frequency : Int
  body_frequency : Int
  title_positions : List Int
  body_positions : List Int
deriving DecidableEq

/-- `WordStats::get_weighted_frequency`. -/
def WordStats.get_weighted_frequency (s : WordStats) : Int :=
  s.title_frequency * 3 + s.body_frequency

/-- `PendingDocument` (`BatchIndexWriter.hpp`), without the queueing
    timestamp. -/
structure PendingDocument where
  doc_id : Int
  title : Str
  tokens : List Str
  doc_stats : List (Int × WordStats)
  url : Str
  pdf_path : Str
deriving DecidableEq

/-- One metadata record as persisted by `DocumentMetadata::add_document`
    with the fixed arguments `(2024, 1, 0, title, url)`. -/
structure MetaRecord where
  publication_year : Int
  publication_month : Int
  cited_by_count : Int
  title : Str
  url : Str
deriving DecidableEq

/-- One line of the raw corpus file (`test.jsonl`). -/
structure CorpusLine where
  doc_id : Int
  title : Str
  body_tokens : List Str
  word_count : Int
  pdf_path : Str
  url : Str
deriving DecidableEq

/-- The six persisted structures `update_indices` touches.  The lexicon
    file is represented by its word list. -/
structure IndexFiles where
  lexicon_file : List Str
  forward_file : List (Int × Int × List (Int × WordStats))
  delta_file : List (Int × List DeltaEntry)
  metadata_file : List (Int × MetaRecord)
  url_file : List (Int × Str)
  corpus_file : List CorpusLine
deriving DecidableEq

/-- Injected I/O failures at the three points where `update_indices` can
    detect one and throw. -/
structure FailSpec where
  forward_open_fails : Bool
  delta_temp_open_fails : Bool
  delta_write_fails : Bool
deriving DecidableEq

/-- Modelled from the spec: `Lexicon::update_from_tokens` is called by
    `update_indices` but its implementation is not among the sources (only
    callers are).  Per §4.A, it appends any unseen survivor tokens with
    fresh ids `size, size+1, …` and persists the lexicon file. -/
def update_from_tokens (lexicon_words : List Str) (tokens : List Str) : List Str :=
  tokens.foldl
    (fun ws tok =>
      let w := toLowerStr tok
      if is_significant_word w ∧ w ∉ ws then ws ++ [w] else ws)
    lexicon_words

/-- The forward-index line appended for one document: doc id, computed
    `doc_length` (sum of title and body frequencies), and the words
    object. -/
def forwardLine (doc : PendingDocument) : Int × Int × List (Int × WordStats) :=
  (doc.doc_id,
   doc.doc_stats.foldl (fun acc p => acc + p.2.title_frequency + p.2.body_frequency) 0,
   doc.doc_stats)

/-- Step 3's in-memory delta merge: for each document and word, append
    `[doc_id, weighted_frequency, title_positions ++ body_positions]`. -/
def mergeBatchIntoDelta (delta : List (Int × List DeltaEntry))
    (batch : List PendingDocument) : List (Int × List DeltaEntry) :=
  batch.foldl
    (fun dj doc =>
      doc.doc_stats.foldl
        (fun dj p =>
          let entry : DeltaEntry :=
            ⟨doc.doc_id, p.2.get_weighted_frequency, p.2.title_positions ++ p.2.body_positions⟩
          match assocLookup dj p.1 with
          | some existing => assocInsert dj p.1 (existing ++ [entry])
          | none => assocInsert dj p.1 [entry])
        dj)
    delta

/-- The corpus (`test.jsonl`) line for one document. -/
def corpusLine (doc : PendingDocument) : CorpusLine :=
  ⟨doc.doc_id, doc.title, doc.tokens, doc.tokens.length, doc.pdf_path, doc.url⟩

/-- `BatchIndexWriter::update_indices`.  Returns the resulting file
    contents and whether the batch completed (`false` = an exception was
    thrown at the failed step; files mutated before that point keep their
    new contents, later files keep their old ones). -/
def update_indices (files : IndexFiles) (fail : FailSpec) (batch : List PendingDocument) :
    IndexFiles × Bool :=
  -- 1. lexicon update (extends and persists; no failure is detected here)
  let all_tokens := batch.flatMap PendingDocument.tokens
  let files1 := if all_tokens ≠ [] then
    { files with lexicon_file := update_from_tokens files.lexicon_file all_tokens }
    else files
  -- 2. forward index: open for append, then write one line per document
  if fail.forward_open_fails then (files1, false)
  else
    let files2 := { files1 with forward_file := files1.forward_file ++ batch.map forwardLine }
    -- 3. delta: read + merge in memory, write temp, rename
    let merged_delta := mergeBatchIntoDelta files2.delta_file batch
    if fail.delta_temp_open_fails then (files2, false)
    else if fail.delta_write_fails then (files2, false)
    else
      let files3 := { files2 with delta_file := merged_delta }
      -- 4. metadata updates + save (result of save is ignored by the code)
      let new_meta := batch.foldl
        (fun m doc => assocInsert m doc.doc_id (MetaRecord.mk 2024 1 0 doc.title doc.url))
        files3.metadata_file
      let files4 := { files3 with metadata_file := new_meta }
      -- 5. URL mappings + save (ignored result)
      let new_urls := batch.foldl (fun m doc => assocInsert m doc.doc_id doc.url)
        files4.url_file
      let files5 := { files4 with url_file := new_urls }
      -- 6. corpus append (an unopenable file is silently tolerated)
      let files6 := { files5 with corpus_file := files5.corpus_file ++ batch.map corpusLine }
      (files6, true)

/-- The statistics relevant to "documents marked indexed". -/
structure WriterStats where
  documents_indexed : Nat
  batches_flushed : Nat
deriving DecidableEq

/-- `BatchIndexWriter::flush_batch`: runs `update_indices`, catching any
    exception; statistics are updated only on success. -/
def flush_batch (files : IndexFiles) (stats : WriterStats) (fail : FailSpec)
    (batch : List PendingDocument) : IndexFiles × WriterStats :=
  match update_indices files fail batch with
  | (files2, true) =>
    (files2, ⟨stats.documents_indexed + batch.length, stats.batches_flushed + 1⟩)
  | (files2, false) => (files2, stats)

/-- A concrete one-document batch used in the C2 counterexample. -/
def cexDoc : PendingDocument :=
  ⟨0, String.toList "T", [String.toList "machine"],
   [(4, ⟨0, 1, [], [0]⟩)], String.toList "u", String.toList "p"⟩

/-- C2 counterexample: with the delta temp file failing to open (an I/O
    failure mid-flush), the flush aborts and the documents are not marked
    indexed, but the forward index file has already been appended to in
    place and is NOT back at its pre-batch contents. -/
theorem C2_flush_failure_counterexample :
    (update_indices (IndexFiles.mk [] [] [] [] [] []) (FailSpec.mk false true false)
      [cexDoc]).2 = false ∧
    (flush_batch (IndexFiles.mk [] [] [] [] [] []) (WriterStats.mk 0 0)
      (FailSpec.mk false true false) [cexDoc]).1.forward_file ≠
      (IndexFiles.mk [] [] [] [] [] []).forward_file := by
  constructor
  · rfl
  · intro h
    simp [flush_batch, update_indices, cexDoc] at h

/-- C2 (amended): an I/O failure during flush aborts the batch and leaves
    the delta, metadata, URL-map and corpus files at their pre-batch
    contents, and the documents are not marked indexed; however the
    lexicon file (updated first, in place) and the forward index file
    (appended in place before the delta step) are not rolled back. -/
theorem C2_flush_failure_partial_state (files : IndexFiles) (stats : WriterStats)
    (fail : FailSpec) (batch : List PendingDocument)
    (hfail : (update_indices files fail batch).2 = false) :
    (flush_batch files stats fail batch).1.delta_file = files.delta_file ∧
    (flush_batch files stats fail batch).1.metadata_file = files.metadata_file ∧
    (flush_batch files stats fail batch).1.url_file = files.url_file ∧
    (flush_batch files stats fail batch).1.corpus_file = files.corpus_file ∧
    (flush_batch files stats fail batch).2 = stats := by
  rw [flush_batch]
  rw [update_indices] at hfail ⊢
  by_cases h2 : fail.forward_open_fails
  · simp only [h2, if_true]
    by_cases h1 : batch.flatMap PendingDocument.tokens ≠ [] <;> simp [h1]
  · simp only [h2, if_false] at hfail ⊢
    by_cases h3 : fail.delta_temp_open_fails
    · simp only [h3, if_true]
      by_cases h1 : batch.flatMap PendingDocument.tokens ≠ [] <;> simp [h1]
    · simp only [h3, if_false] at hfail ⊢
      by_cases h4 : fail.delta_write_fails
      · simp only [h4, if_true]
        by_cases h1 : batch.flatMap PendingDocument.tokens ≠ [] <;> simp [h1]
      · simp only [h4, if_false] at hfail
        by_cases h1 : batch.flatMap PendingDocument.tokens ≠ [] <;> simp [h1] at hfail

/-- Witness for the amended C2 at the concrete failing flush. -/
theorem C2_flush_failure_partial_state_witness :
    (update_indices (IndexFiles.mk [] [] [] [] [] []) (FailSpec.mk false true false)
      [cexDoc]).2 = false ∧
    (flush_batch (IndexFiles.mk [] [] [] [] [] []) (WriterStats.mk 3 1)
      (FailSpec.mk false true false) [cexDoc]).1.delta_file =
      (IndexFiles.mk [] [] [] [] [] [] : IndexFiles).delta_file ∧
    (flush_batch (IndexFiles.mk [] [] [] [] [] []) (WriterStats.mk 3 1)
      (FailSpec.mk false true false) [cexDoc]).2 = WriterStats.mk 3 1 :=
  ⟨rfl,
    (C2_flush_failure_partial_state (IndexFiles.mk [] [] [] [] [] []) (WriterStats.mk 3 1)
      (FailSpec.mk false true false) [cexDoc] rfl).1,
    (C2_flush_failure_partial_state (IndexFiles.mk [] [] [] [] [] []) (WriterStats.mk 3 1)
      (FailSpec.mk false true false) [cexDoc] rfl).2.2.2.2⟩

/-! ## Search coordinator (`SearchService.cpp`, claims C1, C4, C5, C10)

The service state bundles the structures `SearchService` borrows per
query.  Barrel files are modelled by their decoded content (the cache is
content-transparent, claim C7 covers its bound); `double` scores live in
`ℝ`, making the scoring pipeline noncomputable while the match-counting
and position bookkeeping stay executable, exactly as the code keeps
`doc_scores`, `doc_match_count` and `doc_positions_map` in separate
maps. -/

/-- A 300-dimensional embedding vector (`std::vector<float>` of
    `EMBEDDING_DIM`). -/
def Vec : Type := Fin 300 → ℝ

/-- The structures a query borrows from `SearchService`. -/
structure SearchState where
  lexicon : Lexicon
  trie : TrieNode
  barrels : Int → List (Int × List DeltaEntry)
  delta_index : List (Int × List DeltaEntry)
  doc_stats_cache : List (Int × DocStats)
  metadata : List (Int × MetaRecord)
  doc_url : Int → Str
  semantic_enabled : Bool
  document_vectors : List (Int × Vec)
  word_embeddings : List (Str × Vec)

/-- `DocumentMetadata::get_publication_year` (0 when absent). -/
def get_publication_year (st : SearchState) (doc_id : Int) : Int :=
  match assocLookup st.metadata doc_id with
  | none => 0
  | some m => m.publication_year

/-- `DocumentMetadata::get_cited_by_count` (0 when absent). -/
def get_cited_by_count (st : SearchState) (doc_id : Int) : Int :=
  match assocLookup st.metadata doc_id with
  | none => 0
  | some m => m.cited_by_count

/-- `SearchService::get_title_frequency` (0 on any miss). -/
def get_title_frequency (st : SearchState) (doc_id word_id : Int) : Int :=
  match assocLookup st.doc_stats_cache doc_id with
  | none => 0
  | some stats =>
    match assocLookup stats.title_frequencies word_id with
    | none => 0
    | some f => f

/-- `SearchService::get_document_length` (0 when absent). -/
def get_document_length (st : SearchState) (doc_id : Int) : Int :=
  match assocLookup st.doc_stats_cache doc_id with
  | none => 0
  | some stats => stats.doc_length

/-! ### Ranking scorer (`RankingScorer.cpp`), weights `(0.4, 0.2, 0.3, 0.1)` -/

/-- `RankingScorer::calculate_frequency_score` (`log1p`). -/
noncomputable def calculate_frequency_score (weighted_frequency : Int) : ℝ :=
  Real.log (1 + (weighted_frequency : ℝ))

/-- `RankingScorer::calculate_position_score`. -/
noncomputable def calculate_position_score (positions : List Int) (doc_length : Int) : ℝ :=
  if positions = [] then 0
  else if doc_length ≤ 0 then
    (positions.foldl
      (fun score pos =>
        if pos < 10 then score + (10 - (pos : ℝ)) * 0.1
        else if pos < 50 then score + (50 - (pos : ℝ)) * 0.01
        else score)
      0) / max 1 (positions.length : ℝ)
  else
    (positions.foldl
      (fun score pos =>
        let relative_pos : ℝ := (pos : ℝ) / (doc_length : ℝ)
        if relative_pos < 0.1 then score + (1 - relative_pos * 10) * 1
        else if relative_pos < 0.5 then score + (1 - (relative_pos - 0.1) * 2.5) * 0.2
        else score + (1.1 - relative_pos) * 0.1)
      0) / max 1 (positions.length : ℝ)

/-- `RankingScorer::calculate_title_boost`. -/
noncomputable def calculate_title_boost (title_frequency : Int) : ℝ :=
  if 0 < title_frequency then 2 else 1

/-- `RankingScorer::calculate_metadata_score`. -/
noncomputable def calculate_metadata_score (st : SearchState) (doc_id : Int) : ℝ :=
  let cited_count := get_cited_by_count st doc_id
  if 0 < cited_count then Real.log (1 + (cited_count : ℝ)) * 0.3 else 0

/-- `RankingScorer::calculate_date_boost`. -/
noncomputable def calculate_date_boost (publication_year : Int) : ℝ :=
  if publication_year ≤ 0 then 1
  else max 0.5 (min 2 (1 + ((publication_year : ℝ) - 2000) * 0.01))

/-- `RankingScorer::calculate_score` (`final_score` component). -/
noncomputable def calculate_score (st : SearchState) (weighted_frequency title_frequency : Int)
    (positions : List Int) (doc_id doc_length : Int) : ℝ :=
  (calculate_frequency_score weighted_frequency * 0.4 +
   calculate_position_score positions doc_length * 0.2 +
   calculate_title_boost title_frequency * 0.3 +
   calculate_metadata_score st doc_id * 0.1) *
  calculate_date_boost (get_publication_year st doc_id)

/-! ### Semantic scorer (`SemanticScorer.cpp`) -/

open scoped Classical in
/-- `SemanticScorer::normalize_vector`. -/
noncomputable def normalize_vector (v : Vec) : Vec :=
  let norm := Real.sqrt (∑ i, v i * v i)
  if 0 < norm then fun i => v i / norm else v

open scoped Classical in
/-- `SemanticScorer::compute_query_vector`: mean of the embeddings of the
    query words found in the map, re-normalized; all-zero when none
    match. -/
noncomputable def compute_query_vector (st : SearchState) (query_words : List Str) : Vec :=
  let matched := query_words.filterMap (fun w => assocLookup st.word_embeddings w)
  if matched.length = 0 then fun _ => 0
  else normalize_vector (fun i => (matched.foldl (fun s vv => s + vv i) 0) / (matched.length : ℝ))

open scoped Classical in
/-- `SemanticScorer::cosine_similarity` (dimension check is carried by the
    `Vec` type), clamped to `[0, 1]`. -/
noncomputable def cosine_similarity (a b : Vec) : ℝ :=
  let dot_product := ∑ i, a i * b i
  let norm_a := Real.sqrt (∑ i, a i * a i)
  let norm_b := Real.sqrt (∑ i, b i * b i)
  if norm_a = 0 ∨ norm_b = 0 then 0
  else max 0 (min 1 (dot_product / (norm_a * norm_b)))

open scoped Classical in
/-- `SemanticScorer::compute_similarity` (`is_loaded` is the
    `semantic_enabled_` conjunction in the service). -/
noncomputable def compute_similarity (st : SearchState) (doc_id : Int)
    (query_words : List Str) : ℝ :=
  if st.semantic_enabled = false then 0
  else
    match assocLookup st.document_vectors doc_id with
    | none => 0
    | some doc_vec =>
      let query_vec := compute_query_vector st query_words
      if ∀ i, query_vec i = 0 then 0
      else cosine_similarity query_vec doc_vec

/-! ### Query pipeline (`SearchService::search`) -/

/-- `split_query` (`istringstream >> word`: split on whitespace). -/
def splitWsGo : Str → Str → List Str
  | [], cur => if cur = [] then [] else [cur]
  | c :: rest, cur =>
    if isSpaceChar c then
      if cur = [] then splitWsGo rest [] else cur :: splitWsGo rest []
    else splitWsGo rest (cur ++ [c])

def split_query (s : Str) : List Str := splitWsGo s []

/-- Query normalization: alphanumerics lowercased, all else to spaces. -/
def cleanQuery (q : Str) : Str :=
  q.map (fun c => if isAlnumChar c then toLowerChar c else ' ')

/-- The union of the main barrel posting list and the delta list for one
    term id (`combined_entries` in the search loop; entries are modelled
    post-JSON-parse, so the `entry.size() >= 3` guard is vacuous). -/
def combined_entries (st : SearchState) (word_id : Int) : List DeltaEntry :=
  ((assocLookup (st.barrels (word_id % 100)) word_id).getD []) ++
  ((assocLookup st.delta_index word_id).getD [])

/-- The recognized query tokens, with their positions in the query and
    their lexicon ids (the search loop skips `word_id == -1`). -/
def recognized (st : SearchState) (query_words : List Str) : List (Nat × Str × Int) :=
  query_words.enum.filterMap (fun p =>
    let word_id := get_word_index st.lexicon p.2
    if word_id = -1 then none else some (p.1, p.2, word_id))

/-- `valid_query_words`. -/
def valid_query_words (st : SearchState) (query_words : List Str) : Nat :=
  (recognized st query_words).length

/-- `doc_match_count[doc_id]++`. -/
def bumpCount (m : List (Int × Nat)) (d : Int) : List (Int × Nat) :=
  match assocLookup m d with
  | some c => assocInsert m d (c + 1)
  | none => assocInsert m d 1

/-- `doc_scores[doc_id] += s`. -/
noncomputable def addScore (m : List (Int × ℝ)) (d : Int) (s : ℝ) : List (Int × ℝ) :=
  match assocLookup m d with
  | some old => assocInsert m d (old + s)
  | none => assocInsert m d s

/-- `doc_positions_map[doc_id][i] = positions`. -/
def setPositions (m : List (Int × List (Nat × List Int))) (d : Int) (i : Nat)
    (ps : List Int) : List (Int × List (Nat × List Int)) :=
  match assocLookup m d with
  | some pm => assocInsert m d (assocInsert pm i ps)
  | none => assocInsert m d [(i, ps)]

/-- The per-entry score contribution of one posting for one term. -/
noncomputable def entryScore (st : SearchState) (word_id : Int) (e : DeltaEntry) : ℝ :=
  calculate_score st e.frequency (get_title_frequency st e.doc_id word_id) e.positions
    e.doc_id (get_document_length st e.doc_id)

/-- `doc_match_count` after the per-term loops (the three maps are
    independent, so each is folded separately, in the same order). -/
def doc_match_count (st : SearchState) (query_words : List Str) : List (Int × Nat) :=
  (recognized st query_words).foldl
    (fun m t => (combined_entries st t.2.2).foldl (fun m e => bumpCount m e.doc_id) m) []

/-- `doc_scores` after the per-term loops. -/
noncomputable def doc_scores (st : SearchState) (query_words : List Str) : List (Int × ℝ) :=
  (recognized st query_words).foldl
    (fun m t => (combined_entries st t.2.2).foldl
      (fun m e => addScore m e.doc_id (entryScore st t.2.2 e)) m) []

/-- `doc_positions_map` after the per-term loops. -/
def doc_positions_map (st : SearchState) (query_words : List Str) :
    List (Int × List (Nat × List Int)) :=
  (recognized st query_words).foldl
    (fun m t => (combined_entries st t.2.2).foldl
      (fun m e => setPositions m e.doc_id t.1 e.positions) m) []

/-- The proximity-bonus loop: +100 once per adjacent query-index pair with
    adjacent positions. -/
noncomputable def proximity_bonus (positions : List (Nat × List Int)) (n_words : Nat) : ℝ :=
  (((List.range (n_words - 1)).filter (fun k =>
    match assocLookup positions k, assocLookup positions (k + 1) with
    | some posA, some posB => decide (∃ a ∈ posA, a + 1 ∈ posB)
    | _, _ => false)).length : ℝ) * 100

/-- One entry of `final_results`. -/
structure SearchResult where
  doc_id : Int
  url : Str
  score : ℝ
  publication_year : Int
  cited_by_count : Int

/-- The AND intersection: entries of `doc_match_count` whose count equals
    `valid_query_words`. -/
def andFiltered (st : SearchState) (query_words : List Str) : List (Int × Nat) :=
  (doc_match_count st query_words).filter
    (fun p => p.2 = valid_query_words st query_words)

/-- The sparse (pre-semantic) score of a retained document: accumulated
    per-term scores plus the proximity bonus. -/
noncomputable def sparseScore (st : SearchState) (query_words : List Str) (d : Int) : ℝ :=
  ((assocLookup (doc_scores st query_words) d).getD 0) +
  proximity_bonus ((assocLookup (doc_positions_map st query_words) d).getD [])
    query_words.length

/-- The `SearchResult` pushed for one retained document. -/
noncomputable def mkResult (st : SearchState) (query_words : List Str) (d : Int) :
    SearchResult :=
  ⟨d, st.doc_url d, sparseScore st query_words d,
   get_publication_year st d, get_cited_by_count st d⟩

/-- `final_results` after the AND filter and proximity loop. -/
noncomputable def final_results (st : SearchState) (query_words : List Str) :
    List SearchResult :=
  (andFiltered st query_words).map (fun p => mkResult st query_words p.1)

/-- `min` of the semantic scores (`minmax_element` on a nonempty vector). -/
noncomputable def listMin : List ℝ → ℝ
  | [] => 0
  | x :: xs => xs.foldl min x

/-- `max` of the semantic scores. -/
noncomputable def listMax : List ℝ → ℝ
  | [] => 0
  | x :: xs => xs.foldl max x

open scoped Classical in
/-- Step 4 of `search`: semantic blending.  The min–max normalization is
    over the *semantic* scores; when their range is not positive the
    results are left unchanged. -/
noncomputable def apply_semantic (st : SearchState) (query_words : List Str)
    (results : List SearchResult) : List SearchResult :=
  if st.semantic_enabled = true ∧ results ≠ [] then
    let semantic_scores := results.map (fun r => compute_similarity st r.doc_id query_words)
    let min_score := listMin semantic_scores
    let max_score := listMax semantic_scores
    let range := max_score - min_score
    if 0 < range then
      (results.zip semantic_scores).map (fun p =>
        { p.1 with score := 0.6 * p.1.score + 0.4 * ((p.2 - min_score) / range) })
    else results
  else results

open scoped Classical in
/-- `compareResults`: scores compared with a `1e-6` tolerance; ties broken
    by year, then citations. -/
noncomputable def compareResults (a b : SearchResult) : Prop :=
  if 1e-6 < |a.score - b.score| then a.score > b.score
  else if a.publication_year ≠ b.publication_year
    then a.publication_year > b.publication_year
  else a.cited_by_count > b.cited_by_count

open scoped Classical in
/-- Step 4-5 of `search`: `std::partial_sort` + `resize(50)` beyond 50
    candidates, full `std::sort` otherwise (both modelled by a comparison
    sort followed by truncation). -/
noncomputable def sortResults (l : List SearchResult) : List SearchResult :=
  if 50 < l.length then (l.insertionSort compareResults).take 50
  else l.insertionSort compareResults

/-- `SearchService::search`, returning the `results` array (JSON
    serialization dropped). -/
noncomputable def search (st : SearchState) (query : Str) : List SearchResult :=
  let query_words := split_query (cleanQuery query)
  if query_words = [] then []
  else if valid_query_words st query_words = 0 then []
  else sortResults (apply_semantic st query_words (final_results st query_words))

/-- `SearchService::autocomplete`, returning the `(prefix, suggestions)`
    content of the JSON reply. -/
def service_autocomplete (st : SearchState) (p : Str) (limit : Int) : Str × List Str :=
  if p = [] ∨ limit ≤ 0 then (p, [])
  else
    let cleanPref := (p.filter (fun c => ¬ isSpaceChar c)).map toLowerChar
    (p, trieAutocomplete st.trie cleanPref limit)

/-! ### Claim C1: AND intersection -/

/-- Invariant I1 as the claim states it: no `(term, doc)` pair has a
    posting in both its main barrel and the delta. -/
def I1 (st : SearchState) : Prop :=
  ∀ t d, ¬ (d ∈ ((assocLookup (st.barrels (t % 100)) t).getD []).map DeltaEntry.doc_id ∧
            d ∈ ((assocLookup st.delta_index t).getD []).map DeltaEntry.doc_id)

/-- The number of postings for document `d` contributed by each recognized
    query token, summed (what `doc_match_count[d]` accumulates). -/
def matchCountSpec (st : SearchState) (query_words : List Str) (d : Int) : Nat :=
  ((recognized st query_words).map
    (fun t => ((combined_entries st t.2.2).filter (fun e => e.doc_id = d)).length)).sum

theorem assocInsert_keys_nodup {α β : Type} [DecidableEq α] {m : List (α × β)} {k : α}
    {v : β} (h : (m.map Prod.fst).Nodup) : ((assocInsert m k v).map Prod.fst).Nodup := by
  induction m with
  | nil => simp [assocInsert]
  | cons hd rest ih =>
    obtain ⟨a, b⟩ := hd
    rw [List.map_cons, List.nodup_cons] at h
    by_cases ha : a = k
    · rw [assocInsert, if_pos ha, List.map_cons, List.nodup_cons]
      exact ⟨ha ▸ h.1, h.2⟩
    · rw [assocInsert, if_neg ha, List.map_cons, List.nodup_cons]
      refine ⟨?_, ih h.2⟩
      intro hcontra
      rcases List.mem_map.1 hcontra with ⟨q, hq, hqe⟩
      rcases assocInsert_sub q hq with heq | hq2
      · apply ha
        rw [heq] at hqe
        exact hqe.symm
      · exact h.1 (List.mem_map.2 ⟨q, hq2, hqe⟩)

theorem assocLookup_of_mem_nodup {α β : Type} [DecidableEq α] {m : List (α × β)}
    {k : α} {v : β} (hnd : (m.map Prod.fst).Nodup) (h : (k, v) ∈ m) :
    assocLookup m k = some v := by
  induction m with
  | nil => simp at h
  | cons hd rest ih =>
    obtain ⟨a, b⟩ := hd
    rw [List.map_cons, List.nodup_cons] at hnd
    rcases List.mem_cons.1 h with heq | h2
    · cases heq
      simp [assocLookup]
    · have hak : a ≠ k := by
        intro hcontra
        exact hnd.1 (List.mem_map.2 ⟨(k, v), h2, hcontra.symm⟩)
      rw [assocLookup, if_neg hak]
      exact ih hnd.2 h2

theorem mem_keys_iff_lookup {α β : Type} [DecidableEq α] {m : List (α × β)} {k : α} :
    k ∈ m.map Prod.fst ↔ ∃ v, assocLookup m k = some v := by
  constructor
  · intro h
    induction m with
    | nil => simp at h
    | cons hd rest ih =>
      obtain ⟨a, b⟩ := hd
      rcases List.mem_cons.1 h with heq | h2
      · exact ⟨b, by simp [assocLookup, heq]⟩
      · by_cases ha : a = k
        · exact ⟨b, by simp [assocLookup, ha]⟩
        · rcases ih h2 with ⟨v, hv⟩
          exact ⟨v, by rw [assocLookup, if_neg ha]; exact hv⟩
  · rintro ⟨v, hv⟩
    exact List.mem_map_of_mem Prod.fst (assocLookup_mem hv)

theorem bumpCount_lookup (m : List (Int × Nat)) (d x : Int) :
    assocLookup (bumpCount m d) x =
      if x = d then some ((assocLookup m d).getD 0 + 1) else assocLookup m x := by
  rw [bumpCount]
  by_cases hx : x = d
  · subst hx
    cases hm : assocLookup m x with
    | none => simp [hm, assocLookup_assocInsert_self]
    | some c => simp [hm, assocLookup_assocInsert_self]
  · cases hm : assocLookup m d with
    | none =>
      dsimp only
      rw [if_neg hx]
      exact assocLookup_assocInsert_other _ _ _ _ (fun h => hx h.symm)
    | some c =>
      dsimp only
      rw [if_neg hx]
      exact assocLookup_assocInsert_other _ _ _ _ (fun h => hx h.symm)

theorem bumpCount_keys_nodup {m : List (Int × Nat)} {d : Int}
    (h : (m.map Prod.fst).Nodup) : ((bumpCount m d).map Prod.fst).Nodup := by
  rw [bumpCount]
  cases assocLookup m d <;> exact assocInsert_keys_nodup h

theorem bumpCount_pos {m : List (Int × Nat)} {d : Int}
    (h : ∀ p ∈ m, 0 < p.2) : ∀ p ∈ bumpCount m d, 0 < p.2 := by
  rw [bumpCount]
  cases hm : assocLookup m d with
  | none =>
    intro p hp
    rcases assocInsert_sub p hp with rfl | hp2
    · exact Nat.one_pos
    · exact h p hp2
  | some c =>
    intro p hp
    rcases assocInsert_sub p hp with rfl | hp2
    · exact Nat.succ_pos c
    · exact h p hp2

/-- Folding `bumpCount` over a posting list adds, per document, the number
    of postings with that doc id. -/
theorem bumpFold_props (es : List DeltaEntry) :
    ∀ (m : List (Int × Nat)),
    (m.map Prod.fst).Nodup → (∀ p ∈ m, 0 < p.2) →
    (((es.foldl (fun m e => bumpCount m e.doc_id) m).map Prod.fst).Nodup ∧
     (∀ p ∈ es.foldl (fun m e => bumpCount m e.doc_id) m, 0 < p.2) ∧
     ∀ d, (assocLookup (es.foldl (fun m e => bumpCount m e.doc_id) m) d).getD 0 =
       (assocLookup m d).getD 0 + (es.filter (fun e => e.doc_id = d)).length) := by
  induction es with
  | nil =>
    intro m h1 h2
    refine ⟨h1, h2, ?_⟩
    intro d
    simp
  | cons e rest ih =>
    intro m h1 h2
    rw [List.foldl_cons]
    obtain ⟨ih1, ih2, ih3⟩ := ih (bumpCount m e.doc_id) (bumpCount_keys_nodup h1)
      (bumpCount_pos h2)
    refine ⟨ih1, ih2, ?_⟩
    intro d
    rw [ih3 d, bumpCount_lookup, List.filter_cons]
    by_cases hd : e.doc_id = d
    · rw [if_pos hd.symm, if_pos (by simpa using hd), hd]
      simp only [Option.getD_some, List.length_cons]
      omega
    · rw [if_neg (fun h => hd h.symm), if_neg (by simpa using hd)]

/-- Characterization of `doc_match_count`: duplicate-free keys, positive
    counts, and per-document value `matchCountSpec`. -/
theorem doc_match_count_props (st : SearchState) (query_words : List Str) :
    ((doc_match_count st query_words).map Prod.fst).Nodup ∧
    (∀ p ∈ doc_match_count st query_words, 0 < p.2) ∧
    ∀ d, (assocLookup (doc_match_count st query_words) d).getD 0 =
      matchCountSpec st query_words d := by
  unfold doc_match_count matchCountSpec
  suffices hgen : ∀ (ts : List (Nat × Str × Int)) (m : List (Int × Nat)),
      (m.map Prod.fst).Nodup → (∀ p ∈ m, 0 < p.2) →
      (((ts.foldl (fun m t => (combined_entries st t.2.2).foldl
          (fun m e => bumpCount m e.doc_id) m) m).map Prod.fst).Nodup ∧
       (∀ p ∈ ts.foldl (fun m t => (combined_entries st t.2.2).foldl
          (fun m e => bumpCount m e.doc_id) m) m, 0 < p.2) ∧
       ∀ d, (assocLookup (ts.foldl (fun m t => (combined_entries st t.2.2).foldl
          (fun m e => bumpCount m e.doc_id) m) m) d).getD 0 =
         (assocLookup m d).getD 0 +
         ((ts.map (fun t => ((combined_entries st t.2.2).filter
            (fun e => e.doc_id = d)).length)).sum)) by
    obtain ⟨h1, h2, h3⟩ := hgen (recognized st query_words) [] (by simp) (by simp)
    refine ⟨h1, h2, ?_⟩
    intro d
    rw [h3 d]
    simp [assocLookup]
  intro ts
  induction ts with
  | nil =>
    intro m h1 h2
    refine ⟨h1, h2, ?_⟩
    intro d
    simp
  | cons t rest ih =>
    intro m h1 h2
    rw [List.foldl_cons]
    obtain ⟨hb1, hb2, hb3⟩ := bumpFold_props (combined_entries st t.2.2) m h1 h2
    obtain ⟨ih1, ih2, ih3⟩ := ih _ hb1 hb2
    refine ⟨ih1, ih2, ?_⟩
    intro d
    rw [ih3 d, hb3 d]
    simp
    omega

open scoped Classical in
theorem mem_sortResults {r : SearchResult} {l : List SearchResult}
    (h : r ∈ sortResults l) : r ∈ l := by
  rw [sortResults] at h
  by_cases hl : 50 < l.length
  · rw [if_pos hl] at h
    exact (List.perm_insertionSort _ l).subset (List.mem_of_mem_take h)
  · rw [if_neg hl] at h
    exact (List.perm_insertionSort _ l).subset h

theorem apply_semantic_doc_mem {st : SearchState} {query_words : List Str}
    {results : List SearchResult} {r : SearchResult}
    (h : r ∈ apply_semantic st query_words results) :
    ∃ r0 ∈ results, r.doc_id = r0.doc_id := by
  rw [apply_semantic] at h
  by_cases hc : st.semantic_enabled = true ∧ results ≠ []
  · rw [if_pos hc] at h
    set sems := results.map (fun r => compute_similarity st r.doc_id query_words) with hsems
    by_cases hr : 0 < listMax sems - listMin sems
    · rw [if_pos hr] at h
      rcases List.mem_map.1 h with ⟨p, hp, rfl⟩
      exact ⟨p.1, (List.of_mem_zip hp).1, rfl⟩
    · rw [if_neg hr] at h
      exact ⟨r, h, rfl⟩
  · rw [if_neg hc] at h
    exact ⟨r, h, rfl⟩

theorem final_results_mem {st : SearchState} {query_words : List Str} {r : SearchResult}
    (h : r ∈ final_results st query_words) :
    r.doc_id ∈ (andFiltered st query_words).map Prod.fst ∧
    r = mkResult st query_words r.doc_id := by
  rw [final_results] at h
  rcases List.mem_map.1 h with ⟨p, hp, rfl⟩
  exact ⟨List.mem_map_of_mem Prod.fst hp, rfl⟩

theorem search_doc_mem {st : SearchState} {q : Str} {r : SearchResult}
    (h : r ∈ search st q) :
    r.doc_id ∈ (andFiltered st (split_query (cleanQuery q))).map Prod.fst := by
  rw [search] at h
  by_cases h1 : split_query (cleanQuery q) = []
  · simp [h1] at h
  · rw [if_neg h1] at h
    by_cases h2 : valid_query_words st (split_query (cleanQuery q)) = 0
    · simp [h2] at h
    · rw [if_neg h2] at h
      have h3 := mem_sortResults h
      rcases apply_semantic_doc_mem h3 with ⟨r0, hr0, hid⟩
      rw [hid]
      exact (final_results_mem hr0).1

theorem sum_le_length_of_le_one {l : List Nat} (h : ∀ x ∈ l, x ≤ 1) :
    l.sum ≤ l.length := by
  induction l with
  | nil => simp
  | cons x t ih =>
    have hx := h x (List.mem_cons_self _ _)
    have ht := ih (fun y hy => h y (List.mem_cons_of_mem _ hy))
    simp only [List.sum_cons, List.length_cons]
    omega

theorem all_one_of_sum_eq_length {l : List Nat} (h1 : ∀ x ∈ l, x ≤ 1)
    (h2 : l.sum = l.length) : ∀ x ∈ l, x = 1 := by
  induction l with
  | nil => simp
  | cons x t ih =>
    have hx := h1 x (List.mem_cons_self _ _)
    have ht := sum_le_length_of_le_one (fun y hy => h1 y (List.mem_cons_of_mem _ hy))
    rw [List.sum_cons, List.length_cons] at h2
    have hx1 : x = 1 := by omega
    have hsum : t.sum = t.length := by omega
    intro y hy
    rcases List.mem_cons.1 hy with rfl | hy2
    · exact hx1
    · exact ih (fun z hz => h1 z (List.mem_cons_of_mem _ hz)) hsum y hy2

theorem count_le_one_of_nodup {es : List DeltaEntry} {d : Int}
    (h : (es.map DeltaEntry.doc_id).Nodup) :
    ((es.filter (fun e => e.doc_id = d)).length) ≤ 1 := by
  induction es with
  | nil => simp
  | cons e rest ih =>
    rw [List.map_cons, List.nodup_cons] at h
    rw [List.filter_cons]
    by_cases hd : e.doc_id = d
    · rw [if_pos (by simpa using hd)]
      have hnil : rest.filter (fun e => e.doc_id = d) = [] := by
        rw [List.filter_eq_nil_iff]
        intro a ha
        simp only [decide_eq_true_eq]
        intro hcontra
        exact h.1 (by rw [hd, ← hcontra]; exact List.mem_map_of_mem DeltaEntry.doc_id ha)
      rw [hnil]
      simp
    · rw [if_neg (by simpa using hd)]
      exact ih h.2

/-- C1 (amended): assuming every recognized term's combined posting list
    (main ∪ delta) is duplicate-free on doc_id — I1 plus the data-model
    invariant that each posting list itself is duplicate-free — the AND
    filter retains exactly the candidate documents whose match count is
    `V = valid_query_words`, and every result returned by `search` has a
    posting for every recognized query token in main ∪ delta. -/
theorem C1_and_intersection (st : SearchState) (q : Str)
    (hdup : ∀ t ∈ recognized st (split_query (cleanQuery q)),
      ((combined_entries st t.2.2).map DeltaEntry.doc_id).Nodup) :
    (∀ d, d ∈ (andFiltered st (split_query (cleanQuery q))).map Prod.fst ↔
      (d ∈ (doc_match_count st (split_query (cleanQuery q))).map Prod.fst ∧
       matchCountSpec st (split_query (cleanQuery q)) d =
         valid_query_words st (split_query (cleanQuery q)))) ∧
    (∀ r ∈ search st q, ∀ t ∈ recognized st (split_query (cleanQuery q)),
      r.doc_id ∈ (combined_entries st t.2.2).map DeltaEntry.doc_id) := by
  obtain ⟨hnd, hpos, hchar⟩ := doc_match_count_props st (split_query (cleanQuery q))
  have hiff : ∀ d, d ∈ (andFiltered st (split_query (cleanQuery q))).map Prod.fst ↔
      (d ∈ (doc_match_count st (split_query (cleanQuery q))).map Prod.fst ∧
       matchCountSpec st (split_query (cleanQuery q)) d =
         valid_query_words st (split_query (cleanQuery q))) := by
    intro d
    constructor
    · intro h
      rcases List.mem_map.1 h with ⟨p, hp, rfl⟩
      rw [andFiltered, List.mem_filter] at hp
      obtain ⟨hmem, hval⟩ := hp
      refine ⟨List.mem_map_of_mem Prod.fst hmem, ?_⟩
      have hlk := assocLookup_of_mem_nodup hnd hmem
      have := hchar p.1
      rw [hlk] at this
      simp only [Option.getD_some] at this
      rw [← this]
      exact of_decide_eq_true hval
    · rintro ⟨hk, hv⟩
      rcases mem_keys_iff_lookup.1 hk with ⟨c, hc⟩
      have := hchar d
      rw [hc] at this
      simp only [Option.getD_some] at this
      have hcv : c = valid_query_words st (split_query (cleanQuery q)) := by
        rw [this, hv]
      have hmem := assocLookup_mem hc
      apply List.mem_map.2
      refine ⟨(d, c), ?_, rfl⟩
      rw [andFiltered, List.mem_filter]
      exact ⟨hmem, by simpa using hcv⟩
  refine ⟨hiff, ?_⟩
  intro r hr t ht
  have hd := search_doc_mem hr
  have hspec := ((hiff r.doc_id).1 hd).2
  rw [matchCountSpec] at hspec
  have hle : ∀ x ∈ (recognized st (split_query (cleanQuery q))).map
      (fun t => ((combined_entries st t.2.2).filter
        (fun e => e.doc_id = r.doc_id)).length), x ≤ 1 := by
    intro x hx
    rcases List.mem_map.1 hx with ⟨t2, ht2, rfl⟩
    exact count_le_one_of_nodup (hdup t2 ht2)
  have hall := all_one_of_sum_eq_length hle
    (by rw [hspec, valid_query_words, List.length_map])
  have hone : ((combined_entries st t.2.2).filter
      (fun e => e.doc_id = r.doc_id)).length = 1 :=
    hall _ (List.mem_map_of_mem _ ht)
  have hne : (combined_entries st t.2.2).filter (fun e => e.doc_id = r.doc_id) ≠ [] := by
    intro hcontra
    rw [hcontra] at hone
    simp at hone
  rcases List.exists_mem_of_ne_nil _ hne with ⟨e, he⟩
  rw [List.mem_filter] at he
  apply List.mem_map.2
  exact ⟨e, he.1, of_decide_eq_true he.2⟩

/-- The C1 counterexample state: term `aa` (id 0) has a duplicated posting
    for doc 5 in its main barrel; term `bb` (id 1) has only doc 99; the
    delta is empty, so I1 (no pair in both tiers) holds. -/
def cexStateC1 : SearchState :=
  { lexicon := ⟨[(String.toList "aa", 0), (String.toList "bb", 1)],
      [String.toList "aa", String.toList "bb"]⟩,
    trie := emptyTrieNode,
    barrels := fun b =>
      if b = 0 then [(0, [⟨5, 1, [0]⟩, ⟨5, 1, [0]⟩])]
      else if b = 1 then [(1, [⟨99, 1, [0]⟩])] else [],
    delta_index := [],
    doc_stats_cache := [], metadata := [], doc_url := fun _ => [],
    semantic_enabled := false, document_vectors := [], word_embeddings := [] }

/-- C1 counterexample: under I1 alone the claim fails.  For the query
    `aa bb` (V = 2), document 5 is counted twice by the duplicated posting
    of term `aa`, passes the AND filter, and is returned by `search`, yet
    it has no posting at all for the recognized term `bb` in main ∪
    delta. -/
theorem C1_and_intersection_counterexample :
    I1 cexStateC1 ∧
    ((1, String.toList "bb", (1 : Int)) ∈
      recognized cexStateC1 (split_query (cleanQuery (String.toList "aa bb")))) ∧
    (search cexStateC1 (String.toList "aa bb")).map SearchResult.doc_id = [5] ∧
    (5 : Int) ∉ (combined_entries cexStateC1 1).map DeltaEntry.doc_id := by
  refine ⟨?_, by decide, ?_, by decide⟩
  · intro t d hcontra
    simp [cexStateC1, assocLookup] at hcontra
  · rw [search]
    have hq : split_query (cleanQuery (String.toList "aa bb")) =
        [String.toList "aa", String.toList "bb"] := by decide
    simp only [hq]
    rw [if_neg (by decide), if_neg (by decide)]
    have hfil : andFiltered cexStateC1 [String.toList "aa", String.toList "bb"] =
        [(5, 2)] := by decide
    rw [apply_semantic, if_neg (by simp [cexStateC1]), final_results, hfil]
    rw [List.map_cons, List.map_nil, sortResults, if_neg (by simp)]
    simp [List.insertionSort, List.orderedInsert, mkResult]

/-- A duplicate-free state for the C1 witness. -/
def okStateC1 : SearchState :=
  { lexicon := ⟨[(String.toList "foo", 0)], [String.toList "foo"]⟩,
    trie := emptyTrieNode,
    barrels := fun b => if b = 0 then [(0, [⟨5, 1, [0]⟩])] else [],
    delta_index := [],
    doc_stats_cache := [], metadata := [], doc_url := fun _ => [],
    semantic_enabled := false, document_vectors := [], word_embeddings := [] }

/-- Witness for the amended C1 at a concrete duplicate-free state. -/
theorem C1_and_intersection_witness :
    (∀ t ∈ recognized okStateC1 (split_query (cleanQuery (String.toList "foo"))),
      ((combined_entries okStateC1 t.2.2).map DeltaEntry.doc_id).Nodup) ∧
    ((∀ d, d ∈ (andFiltered okStateC1
        (split_query (cleanQuery (String.toList "foo")))).map Prod.fst ↔
      (d ∈ (doc_match_count okStateC1
          (split_query (cleanQuery (String.toList "foo")))).map Prod.fst ∧
       matchCountSpec okStateC1 (split_query (cleanQuery (String.toList "foo"))) d =
         valid_query_words okStateC1 (split_query (cleanQuery (String.toList "foo"))))) ∧
     (∀ r ∈ search okStateC1 (String.toList "foo"),
       ∀ t ∈ recognized okStateC1 (split_query (cleanQuery (String.toList "foo"))),
       r.doc_id ∈ (combined_entries okStateC1 t.2.2).map DeltaEntry.doc_id)) :=
  ⟨by decide, C1_and_intersection okStateC1 (String.toList "foo") (by decide)⟩

/-! ### Claim C4: ordering of returned results -/

/-- `a` may legitimately precede `b` in the output: either `a`'s score
    exceeds `b`'s by more than the `1e-6` tolerance, or the scores are
    within tolerance and `(year, citations)` ties break downward.  This is
    exactly `¬ compareResults b a`. -/
def resultsOrdered (a b : SearchResult) : Prop :=
  1e-6 < a.score - b.score ∨
  (|a.score - b.score| ≤ 1e-6 ∧
   (b.publication_year < a.publication_year ∨
    (a.publication_year = b.publication_year ∧ b.cited_by_count ≤ a.cited_by_count)))

theorem not_compareResults_iff (a b : SearchResult) :
    ¬ compareResults b a ↔ resultsOrdered a b := by
  rw [compareResults, resultsOrdered]
  rw [abs_sub_comm b.score a.score]
  by_cases habs : 1e-6 < |a.score - b.score|
  · rw [if_pos habs]
    constructor
    · intro h
      push_neg at h
      left
      rcases abs_cases (a.score - b.score) with ⟨he, _⟩ | ⟨he, hneg⟩
      · rw [he] at habs
        exact habs
      · exfalso
        rw [he] at habs
        have : b.score ≤ a.score := h
        linarith
    · intro h
      rcases h with h | h
      · intro hcontra
        have : b.score > a.score := hcontra
        linarith
      · exact absurd h.1 (not_le.mpr habs)
  · rw [if_neg habs]
    push_neg at habs
    by_cases hy : b.publication_year ≠ a.publication_year
    · rw [if_pos hy]
      constructor
      · intro h
        push_neg at h
        right
        refine ⟨habs, Or.inl ?_⟩
        omega
      · intro h hcontra
        rcases h with h | ⟨_, h⟩
        · have : a.score - b.score ≤ |a.score - b.score| := le_abs_self _
          linarith
        · rcases h with h | ⟨h, _⟩
          · omega
          · omega
    · rw [if_neg hy]
      push_neg at hy
      constructor
      · intro h
        push_neg at h
        exact Or.inr ⟨habs, Or.inr ⟨hy.symm, h⟩⟩
      · intro h hcontra
        rcases h with h | ⟨_, h⟩
        · have : a.score - b.score ≤ |a.score - b.score| := le_abs_self _
          linarith
        · rcases h with h | ⟨_, h⟩
          · omega
          · omega

theorem compareResults_asymm (a b : SearchResult)
    (h : compareResults a b) : ¬ compareResults b a := by
  rw [compareResults] at h ⊢
  rw [abs_sub_comm b.score a.score]
  by_cases habs : 1e-6 < |a.score - b.score|
  · rw [if_pos habs] at h ⊢
    intro hcontra
    have h1 : a.score > b.score := h
    have h2 : b.score > a.score := hcontra
    linarith
  · rw [if_neg habs] at h ⊢
    by_cases hy : a.publication_year ≠ b.publication_year
    · rw [if_pos hy] at h
      rw [if_pos (fun hc => hy hc.symm)]
      omega
    · push_neg at hy
      rw [if_neg (fun hc : a.publication_year ≠ b.publication_year => hc hy)] at h
      rw [if_neg (fun hc : b.publication_year ≠ a.publication_year => hc hy.symm)]
      omega

open scoped Classical in
theorem chain_not_rev_orderedInsert {α : Type} (r : α → α → Prop)
    (hasym : ∀ a b, r a b → ¬ r b a) (a : α) :
    ∀ (l : List α), List.Chain' (fun x y => ¬ r y x) l →
    List.Chain' (fun x y => ¬ r y x) (List.orderedInsert r a l) := by
  intro l
  induction l with
  | nil =>
    intro _
    simp [List.orderedInsert]
  | cons b t ih =>
    intro hl
    rw [List.orderedInsert]
    by_cases hab : r a b
    · rw [if_pos hab]
      exact List.Chain'.cons (hasym a b hab) hl
    · rw [if_neg hab]
      have htail := ih hl.tail
      rw [List.chain'_cons']
      refine ⟨?_, htail⟩
      intro y hy
      cases t with
      | nil =>
        simp [List.orderedInsert] at hy
        subst hy
        exact hab
      | cons c t2 =>
        rw [List.orderedInsert] at hy
        by_cases hac : r a c
        · rw [if_pos hac] at hy
          simp at hy
          subst hy
          exact hab
        · rw [if_neg hac] at hy
          simp at hy
          subst hy
          exact (List.chain'_cons.1 hl).1

open scoped Classical in
theorem chain_not_rev_insertionSort {α : Type} (r : α → α → Prop)
    (hasym : ∀ a b, r a b → ¬ r b a) (l : List α) :
    List.Chain' (fun x y => ¬ r y x) (List.insertionSort r l) := by
  induction l with
  | nil => simp
  | cons a t ih =>
    rw [List.insertionSort]
    exact chain_not_rev_orderedInsert r hasym a _ ih

open scoped Classical in
theorem chain_sortResults (l : List SearchResult) :
    List.Chain' (fun x y => ¬ compareResults y x) (sortResults l) := by
  rw [sortResults]
  by_cases hl : 50 < l.length
  · rw [if_pos hl]
    exact (chain_not_rev_insertionSort compareResults compareResults_asymm l).take _
  · rw [if_neg hl]
    exact chain_not_rev_insertionSort compareResults compareResults_asymm l

/-- C4 (amended): in every returned result list, each adjacent pair is
    ordered by `compareResults`: the later score is more than `1e-6`
    below the earlier, or the scores are within the `1e-6` tolerance and
    the pair is ordered by publication year descending, then citations
    descending.  (Global monotonicity of raw scores fails: the epsilon
    comparison lets a tie-break on year place a smaller score first.) -/
theorem C4_ranking_adjacent_order (st : SearchState) (q : Str) :
    List.Chain' resultsOrdered (search st q) := by
  rw [search]
  by_cases h1 : split_query (cleanQuery q) = []
  · simp [h1]
  · rw [if_neg h1]
    by_cases h2 : valid_query_words st (split_query (cleanQuery q)) = 0
    · simp [h2]
    · rw [if_neg h2]
      exact (chain_sortResults _).imp (fun a b h => (not_compareResults_iff a b).1 h)

/-- Posting of doc 5 for term 0 at position 0 (C4 counterexample). -/
def eC4A : DeltaEntry := ⟨5, 1, [0]⟩

/-- Posting of doc 6 for term 0 at position 1 (C4 counterexample). -/
def eC4B : DeltaEntry := ⟨6, 1, [1]⟩

/-- C4 counterexample state: docs 5 and 6 match the single term `foo` with
    scores `4e-7` apart (positions 0 vs 1 in documents of length `10^7`,
    all other signals equal, date boost clamped to 2 for both), and the
    lower-scored doc 6 has the later publication year. -/
def cexStateC4 : SearchState :=
  { lexicon := ⟨[(String.toList "foo", 0)], [String.toList "foo"]⟩,
    trie := emptyTrieNode,
    barrels := fun b => if b = 0 then [(0, [eC4A, eC4B])] else [],
    delta_index := [],
    doc_stats_cache := [(5, ⟨10000000, []⟩), (6, ⟨10000000, []⟩)],
    metadata := [(5, ⟨2200, 1, 0, [], []⟩), (6, ⟨2300, 1, 0, [], []⟩)],
    doc_url := fun _ => [], semantic_enabled := false,
    document_vectors := [], word_embeddings := [] }

theorem entryScoreC4A :
    entryScore cexStateC4 0 eC4A = (Real.log 2 * 0.4 + 0.2 + 0.3) * 2 := by
  have htf : get_title_frequency cexStateC4 5 0 = 0 := by decide
  have hdl : get_document_length cexStateC4 5 = 10000000 := by decide
  have hyear : get_publication_year cexStateC4 5 = 2200 := by decide
  have hcit : get_cited_by_count cexStateC4 5 = 0 := by decide
  show calculate_score cexStateC4 eC4A.frequency
      (get_title_frequency cexStateC4 eC4A.doc_id 0) eC4A.positions eC4A.doc_id
      (get_document_length cexStateC4 eC4A.doc_id) =
    (Real.log 2 * 0.4 + 0.2 + 0.3) * 2
  have hid : eC4A.doc_id = 5 := rfl
  rw [hid]
  rw [show eC4A.frequency = 1 from rfl, show eC4A.positions = [0] from rfl]
  rw [htf, hdl, calculate_score, hyear]
  have hfreq : calculate_frequency_score 1 = Real.log 2 := by
    rw [calculate_frequency_score]
    norm_num
  have hpos : calculate_position_score [0] 10000000 = 1 := by
    rw [calculate_position_score, if_neg (by simp), if_neg (by norm_num)]
    simp only [List.foldl_cons, List.foldl_nil, List.length_cons, List.length_nil]
    norm_num
  have htb : calculate_title_boost 0 = 1 := by
    rw [calculate_title_boost, if_neg (by norm_num)]
  have hms : calculate_metadata_score cexStateC4 5 = 0 := by
    rw [calculate_metadata_score, hcit]
    norm_num
  have hdb : calculate_date_boost 2200 = 2 := by
    rw [calculate_date_boost, if_neg (by norm_num)]
    norm_num
  rw [hfreq, hpos, htb, hms, hdb]
  ring

theorem entryScoreC4B :
    entryScore cexStateC4 0 eC4B =
      (Real.log 2 * 0.4 + (1 - 1 / 1000000) * 0.2 + 0.3) * 2 := by
  have htf : get_title_frequency cexStateC4 6 0 = 0 := by decide
  have hdl : get_document_length cexStateC4 6 = 10000000 := by decide
  have hyear : get_publication_year cexStateC4 6 = 2300 := by decide
  have hcit : get_cited_by_count cexStateC4 6 = 0 := by decide
  show calculate_score cexStateC4 eC4B.frequency
      (get_title_frequency cexStateC4 eC4B.doc_id 0) eC4B.positions eC4B.doc_id
      (get_document_length cexStateC4 eC4B.doc_id) =
    (Real.log 2 * 0.4 + (1 - 1 / 1000000) * 0.2 + 0.3) * 2
  have hid : eC4B.doc_id = 6 := rfl
  rw [hid]
  rw [show eC4B.frequency = 1 from rfl, show eC4B.positions = [1] from rfl]
  rw [htf, hdl, calculate_score, hyear]
  have hfreq : calculate_frequency_score 1 = Real.log 2 := by
    rw [calculate_frequency_score]
    norm_num
  have hpos : calculate_position_score [1] 10000000 = 1 - 1 / 1000000 := by
    rw [calculate_position_score, if_neg (by simp), if_neg (by norm_num)]
    simp only [List.foldl_cons, List.foldl_nil, List.length_cons, List.length_nil]
    norm_num
  have htb : calculate_title_boost 0 = 1 := by
    rw [calculate_title_boost, if_neg (by norm_num)]
  have hms : calculate_metadata_score cexStateC4 6 = 0 := by
    rw [calculate_metadata_score, hcit]
    norm_num
  have hdb : calculate_date_boost 2300 = 2 := by
    rw [calculate_date_boost, if_neg (by norm_num)]
    norm_num
  rw [hfreq, hpos, htb, hms, hdb]
  ring

theorem sparseScoreC4 :
    sparseScore cexStateC4 [String.toList "foo"] 5 = entryScore cexStateC4 0 eC4A ∧
    sparseScore cexStateC4 [String.toList "foo"] 6 = entryScore cexStateC4 0 eC4B := by
  have hrec : recognized cexStateC4 [String.toList "foo"] =
      [(0, String.toList "foo", 0)] := by decide
  have hcomb : combined_entries cexStateC4 0 = [eC4A, eC4B] := by decide
  have hds : doc_scores cexStateC4 [String.toList "foo"] =
      [(5, entryScore cexStateC4 0 eC4A), (6, entryScore cexStateC4 0 eC4B)] := by
    rw [doc_scores, hrec]
    simp only [List.foldl_cons, List.foldl_nil]
    rw [hcomb]
    simp only [List.foldl_cons, List.foldl_nil]
    simp [addScore, assocLookup, assocInsert, eC4A, eC4B]
  have hprox : ∀ d : Int,
      proximity_bonus ((assocLookup (doc_positions_map cexStateC4
        [String.toList "foo"]) d).getD []) ([String.toList "foo"] : List Str).length
        = 0 := by
    intro d
    rw [proximity_bonus]
    simp
  constructor
  · rw [sparseScore, hds, hprox]
    simp [assocLookup]
  · rw [sparseScore, hds, hprox]
    simp [assocLookup]

theorem scoreDiffC4 :
    entryScore cexStateC4 0 eC4A - entryScore cexStateC4 0 eC4B =
      0.0000004 := by
  rw [entryScoreC4A, entryScoreC4B]
  ring_nf

open scoped Classical in
theorem searchC4_out :
    search cexStateC4 (String.toList "foo") =
      [mkResult cexStateC4 [String.toList "foo"] 6,
       mkResult cexStateC4 [String.toList "foo"] 5] := by
  have hq : split_query (cleanQuery (String.toList "foo")) = [String.toList "foo"] := by
    decide
  have hsc5 : (mkResult cexStateC4 [String.toList "foo"] 5).score =
      entryScore cexStateC4 0 eC4A := sparseScoreC4.1
  have hsc6 : (mkResult cexStateC4 [String.toList "foo"] 6).score =
      entryScore cexStateC4 0 eC4B := sparseScoreC4.2
  have habs : |(mkResult cexStateC4 [String.toList "foo"] 5).score -
      (mkResult cexStateC4 [String.toList "foo"] 6).score| = 0.0000004 := by
    rw [hsc5, hsc6, scoreDiffC4]
    exact abs_of_nonneg (by norm_num)
  have hy5 : (mkResult cexStateC4 [String.toList "foo"] 5).publication_year = 2200 := by
    show get_publication_year cexStateC4 5 = 2200
    decide
  have hy6 : (mkResult cexStateC4 [String.toList "foo"] 6).publication_year = 2300 := by
    show get_publication_year cexStateC4 6 = 2300
    decide
  have hcmp : ¬ compareResults (mkResult cexStateC4 [String.toList "foo"] 5)
      (mkResult cexStateC4 [String.toList "foo"] 6) := by
    rw [compareResults, habs, if_neg (by norm_num), hy5, hy6,
      if_pos (by decide : (2200 : Int) ≠ 2300)]
    decide
  rw [search]
  simp only [hq]
  rw [if_neg (by decide), if_neg (by decide)]
  rw [apply_semantic, if_neg (by simp [cexStateC4])]
  have hfil : andFiltered cexStateC4 [String.toList "foo"] = [(5, 1), (6, 1)] := by decide
  rw [final_results, hfil, List.map_cons, List.map_cons, List.map_nil]
  rw [sortResults, if_neg (by simp)]
  rw [List.insertionSort, List.insertionSort, List.insertionSort]
  have hin : List.orderedInsert compareResults
      (mkResult cexStateC4 [String.toList "foo"] 6) [] =
      [mkResult cexStateC4 [String.toList "foo"] 6] := rfl
  rw [hin, List.orderedInsert, if_neg hcmp, List.orderedInsert]

/-- C4 counterexample: the returned scores are NOT non-increasing.  The
    two results' scores differ by `4e-7` (inside the `1e-6` tolerance), so
    `compareResults` falls through to the year tie-break and places the
    newer, lower-scored document first. -/
theorem C4_scores_not_monotone_counterexample :
    ¬ List.Chain' (fun a b => b.score ≤ a.score)
      (search cexStateC4 (String.toList "foo")) := by
  rw [searchC4_out]
  intro hchain
  have hle : (mkResult cexStateC4 [String.toList "foo"] 5).score ≤
      (mkResult cexStateC4 [String.toList "foo"] 6).score :=
    (List.chain'_cons.1 hchain).1
  have h5 : (mkResult cexStateC4 [String.toList "foo"] 5).score =
      entryScore cexStateC4 0 eC4A := sparseScoreC4.1
  have h6 : (mkResult cexStateC4 [String.toList "foo"] 6).score =
      entryScore cexStateC4 0 eC4B := sparseScoreC4.2
  rw [h5, h6] at hle
  have hdiff := scoreDiffC4
  linarith

/-! ### Claim C5: semantic blending -/

theorem final_results_score {st : SearchState} {query_words : List Str} {r : SearchResult}
    (h : r ∈ final_results st query_words) :
    r.score = sparseScore st query_words r.doc_id := by
  have := (final_results_mem h).2
  rw [this]
  rfl

theorem search_eq_of_results_ne {st : SearchState} {q : Str}
    (hne : final_results st (split_query (cleanQuery q)) ≠ []) :
    search st q = sortResults (apply_semantic st (split_query (cleanQuery q))
      (final_results st (split_query (cleanQuery q)))) := by
  rw [search]
  have h1 : split_query (cleanQuery q) ≠ [] := by
    intro h
    apply hne
    rw [final_results, andFiltered, doc_match_count, h]
    simp [recognized]
  have h2 : valid_query_words st (split_query (cleanQuery q)) ≠ 0 := by
    intro h0
    apply hne
    rw [final_results, andFiltered]
    have hpos := (doc_match_count_props st (split_query (cleanQuery q))).2.1
    have : (doc_match_count st (split_query (cleanQuery q))).filter
        (fun p => p.2 = valid_query_words st (split_query (cleanQuery q))) = [] := by
      rw [List.filter_eq_nil_iff]
      intro p hp
      have := hpos p hp
      rw [h0]
      simp only [decide_eq_true_eq]
      omega
    rw [this]
    simp
  rw [if_neg h1, if_neg h2]

theorem mem_zip_map_self {α β : Type} {l : List α} {g : α → β} {p : α × β}
    (h : p ∈ l.zip (l.map g)) : p.2 = g p.1 := by
  have heq : ∀ (l2 : List α), l2.zip (l2.map g) = l2.map (fun a => (a, g a)) := by
    intro l2
    induction l2 with
    | nil => rfl
    | cons a t ih => simp [List.zip_cons_cons, ih]
  rw [heq] at h
  rcases List.mem_map.1 h with ⟨a, _, rfl⟩
  rfl

open scoped Classical in
/-- C5 (amended): when the semantic scorer is loaded and the AND-filtered
    result set is non-empty, the blend is gated by the range of the
    *dense* (semantic) scores, not the sparse ones: if that range is
    positive, every returned score is `0.6·sparse + 0.4·min-max-normalized
    dense`; if the dense range is degenerate, all sparse scores are kept
    unchanged. -/
theorem C5_semantic_blending (st : SearchState) (q : Str)
    (hen : st.semantic_enabled = true)
    (hne : final_results st (split_query (cleanQuery q)) ≠ []) :
    (0 < listMax ((final_results st (split_query (cleanQuery q))).map
        (fun r => compute_similarity st r.doc_id (split_query (cleanQuery q)))) -
      listMin ((final_results st (split_query (cleanQuery q))).map
        (fun r => compute_similarity st r.doc_id (split_query (cleanQuery q)))) →
      ∀ r ∈ search st q,
        r.score = 0.6 * sparseScore st (split_query (cleanQuery q)) r.doc_id +
          0.4 * ((compute_similarity st r.doc_id (split_query (cleanQuery q)) -
              listMin ((final_results st (split_query (cleanQuery q))).map
                (fun r => compute_similarity st r.doc_id (split_query (cleanQuery q))))) /
            (listMax ((final_results st (split_query (cleanQuery q))).map
                (fun r => compute_similarity st r.doc_id (split_query (cleanQuery q)))) -
              listMin ((final_results st (split_query (cleanQuery q))).map
                (fun r => compute_similarity st r.doc_id (split_query (cleanQuery q))))))) ∧
    (listMax ((final_results st (split_query (cleanQuery q))).map
        (fun r => compute_similarity st r.doc_id (split_query (cleanQuery q)))) -
      listMin ((final_results st (split_query (cleanQuery q))).map
        (fun r => compute_similarity st r.doc_id (split_query (cleanQuery q)))) ≤ 0 →
      ∀ r ∈ search st q,
        r.score = sparseScore st (split_query (cleanQuery q)) r.doc_id) := by
  constructor
  · intro hrange r hr
    rw [search_eq_of_results_ne hne] at hr
    have hr2 := mem_sortResults hr
    rw [apply_semantic, if_pos ⟨hen, hne⟩] at hr2
    rw [if_pos hrange] at hr2
    rcases List.mem_map.1 hr2 with ⟨p, hp, rfl⟩
    have hp1 : p.1 ∈ final_results st (split_query (cleanQuery q)) :=
      (List.of_mem_zip hp).1
    have hps : p.2 = compute_similarity st p.1.doc_id (split_query (cleanQuery q)) :=
      mem_zip_map_self hp
    have hsp : p.1.score = sparseScore st (split_query (cleanQuery q)) p.1.doc_id :=
      final_results_score hp1
    simp only
    rw [hps, hsp]
  · intro hrange r hr
    rw [search_eq_of_results_ne hne] at hr
    have hr2 := mem_sortResults hr
    rw [apply_semantic, if_pos ⟨hen, hne⟩] at hr2
    rw [if_neg (not_lt.mpr hrange)] at hr2
    exact final_results_score hr2

/-- The basis vector `e₀` used by the C5 counterexample. -/
noncomputable def e0vec : Vec := fun i => if i = 0 then 1 else 0

/-- Posting of doc 5 for term 0 (C5 counterexample). -/
def eC5A : DeltaEntry := ⟨5, 1, [0]⟩

/-- Posting of doc 6 for term 0 (C5 counterexample). -/
def eC5B : DeltaEntry := ⟨6, 1, [0]⟩

/-- C5 counterexample state: docs 5 and 6 have *identical sparse scores*
    (the sparse range is degenerate), the scorer is loaded, doc 5 carries
    the embedding `e₀` matching the query word exactly, and doc 6 has no
    vector (dense score 0), so the dense range is 1. -/
noncomputable def cexStateC5 : SearchState :=
  { lexicon := ⟨[(String.toList "foo", 0)], [String.toList "foo"]⟩,
    trie := emptyTrieNode,
    barrels := fun b => if b = 0 then [(0, [eC5A, eC5B])] else [],
    delta_index := [],
    doc_stats_cache := [(5, ⟨10, []⟩), (6, ⟨10, []⟩)],
    metadata := [],
    doc_url := fun _ => [], semantic_enabled := true,
    document_vectors := [(5, e0vec)],
    word_embeddings := [(String.toList "foo", e0vec)] }

theorem sumSqE0 : (∑ i : Fin 300, e0vec i * e0vec i) = 1 := by
  rw [show (fun i => e0vec i * e0vec i) = fun i : Fin 300 => if i = 0 then 1 else 0 by
    funext i
    by_cases h : i = (0 : Fin 300) <;> simp [e0vec, h]]
  simp

theorem entryScoreC5 :
    entryScore cexStateC5 0 eC5A = Real.log 2 * 0.4 + 0.5 ∧
    entryScore cexStateC5 0 eC5B = Real.log 2 * 0.4 + 0.5 := by
  have hcommon : ∀ d : Int, get_title_frequency cexStateC5 d 0 = 0 →
      get_document_length cexStateC5 d = 10 →
      get_publication_year cexStateC5 d = 0 →
      get_cited_by_count cexStateC5 d = 0 →
      calculate_score cexStateC5 1 (get_title_frequency cexStateC5 d 0) [0] d
        (get_document_length cexStateC5 d) = Real.log 2 * 0.4 + 0.5 := by
    intro d htf hdl hyear hcit
    rw [htf, hdl, calculate_score, hyear]
    have hfreq : calculate_frequency_score 1 = Real.log 2 := by
      rw [calculate_frequency_score]
      norm_num
    have hpos : calculate_position_score [0] 10 = 1 := by
      rw [calculate_position_score, if_neg (by simp), if_neg (by norm_num)]
      simp only [List.foldl_cons, List.foldl_nil, List.length_cons, List.length_nil]
      norm_num
    have htb : calculate_title_boost 0 = 1 := by
      rw [calculate_title_boost, if_neg (by norm_num)]
    have hms : calculate_metadata_score cexStateC5 d = 0 := by
      rw [calculate_metadata_score, hcit]
      norm_num
    have hdb : calculate_date_boost 0 = 1 := by
      rw [calculate_date_boost, if_pos (by norm_num)]
    rw [hfreq, hpos, htb, hms, hdb]
    ring
  constructor
  · exact hcommon 5 rfl rfl rfl rfl
  · exact hcommon 6 rfl rfl rfl rfl

theorem sparseScoreC5 :
    sparseScore cexStateC5 [String.toList "foo"] 5 = Real.log 2 * 0.4 + 0.5 ∧
    sparseScore cexStateC5 [String.toList "foo"] 6 = Real.log 2 * 0.4 + 0.5 := by
  have hrec : recognized cexStateC5 [String.toList "foo"] =
      [(0, String.toList "foo", 0)] := rfl
  have hcomb : combined_entries cexStateC5 0 = [eC5A, eC5B] := rfl
  have hds : doc_scores cexStateC5 [String.toList "foo"] =
      [(5, entryScore cexStateC5 0 eC5A), (6, entryScore cexStateC5 0 eC5B)] := by
    rw [doc_scores, hrec]
    simp only [List.foldl_cons, List.foldl_nil]
    rw [hcomb]
    simp only [List.foldl_cons, List.foldl_nil]
    simp [addScore, assocLookup, assocInsert, eC5A, eC5B]
  have hprox : ∀ d : Int,
      proximity_bonus ((assocLookup (doc_positions_map cexStateC5
        [String.toList "foo"]) d).getD []) ([String.toList "foo"] : List Str).length
        = 0 := by
    intro d
    rw [proximity_bonus]
    simp
  constructor
  · rw [sparseScore, hds, hprox]
    simp [assocLookup, entryScoreC5.1]
  · rw [sparseScore, hds, hprox]
    simp [assocLookup, entryScoreC5.2]

open scoped Classical in
theorem simC5_5 : compute_similarity cexStateC5 5 [String.toList "foo"] = 1 := by
  rw [compute_similarity, if_neg (by simp [cexStateC5])]
  have hlk : assocLookup cexStateC5.document_vectors 5 = some e0vec := rfl
  rw [hlk]
  have hqv : compute_query_vector cexStateC5 [String.toList "foo"] = e0vec := by
    rw [compute_query_vector]
    have hmatched : ([String.toList "foo"].filterMap
        (fun w => assocLookup cexStateC5.word_embeddings w)) = [e0vec] := rfl
    rw [hmatched]
    rw [if_neg (by norm_num)]
    have hfn : (fun i => (([e0vec].foldl (fun s vv => s + vv i) 0)) /
        (([e0vec] : List Vec).length : ℝ)) = e0vec := by
      funext i
      simp
    rw [hfn]
    simp only [normalize_vector]
    rw [sumSqE0, Real.sqrt_one, if_pos one_pos]
    funext i
    simp
  rw [hqv]
  have hnz : ¬ (∀ i, e0vec i = 0) := by
    intro h
    have := h 0
    simp [e0vec] at this
  dsimp only
  rw [if_neg hnz]
  rw [cosine_similarity]
  simp only [sumSqE0, Real.sqrt_one]
  rw [if_neg (by norm_num)]
  norm_num

open scoped Classical in
theorem simC5_6 : compute_similarity cexStateC5 6 [String.toList "foo"] = 0 := by
  rw [compute_similarity, if_neg (by simp [cexStateC5])]
  have hlk : assocLookup cexStateC5.document_vectors 6 = none := rfl
  rw [hlk]

/-! ### Claim C10: autocomplete guard -/

/-- C10.  `SearchService::autocomplete` on an empty prefix or a
    non-positive limit returns the given prefix together with an empty
    suggestions array, without attempting any completion. -/
theorem C10_autocomplete_guard (st : SearchState) (p : Str) (limit : Int)
    (h : p = [] ∨ limit ≤ 0) :
    service_autocomplete st p limit = (p, []) := by
  rw [service_autocomplete, if_pos h]

/-- A minimal service state for exercising the autocomplete guard. -/
def stC10 : SearchState :=
  { lexicon := ⟨[], []⟩,
    trie := trieInsert emptyTrieNode (String.toList "cat"),
    barrels := fun _ => [],
    delta_index := [],
    doc_stats_cache := [], metadata := [], doc_url := fun _ => [],
    semantic_enabled := false, document_vectors := [], word_embeddings := [] }

/-- Witness for C10 at concrete inputs: an empty prefix, and a
    non-positive limit with a nonempty prefix, on a state whose trie does
    hold a completion for that prefix. -/
theorem C10_autocomplete_guard_witness :
    service_autocomplete stC10 [] 5 = ([], []) ∧
    service_autocomplete stC10 (String.toList "ca") 0 = (String.toList "ca", []) :=
  ⟨C10_autocomplete_guard stC10 [] 5 (Or.inl rfl),
   C10_autocomplete_guard stC10 (String.toList "ca") 0 (Or.inr (by decide))⟩

open scoped Classical in
/-- C5 counterexample: both retained documents have identical sparse
    scores (the sparse range is degenerate), yet since the *semantic*
    range is 1 (> 0) the code still blends, replacing doc 6's score by
    `0.6·sparse` ≠ `sparse`.  The degeneracy check is on the dense scores,
    not the sparse ones as claimed. -/
theorem C5_blend_counterexample :
    cexStateC5.semantic_enabled = true ∧
    final_results cexStateC5 [String.toList "foo"] ≠ [] ∧
    sparseScore cexStateC5 [String.toList "foo"] 5 =
      sparseScore cexStateC5 [String.toList "foo"] 6 ∧
    ∃ r ∈ search cexStateC5 (String.toList "foo"),
      r.doc_id = 6 ∧ r.score ≠ sparseScore cexStateC5 [String.toList "foo"] 6 := by
  have hq : split_query (cleanQuery (String.toList "foo")) = [String.toList "foo"] := by
    decide
  have hfil : andFiltered cexStateC5 [String.toList "foo"] = [(5, 1), (6, 1)] := rfl
  have hfr : final_results cexStateC5 [String.toList "foo"] =
      [mkResult cexStateC5 [String.toList "foo"] 5,
       mkResult cexStateC5 [String.toList "foo"] 6] := by
    rw [final_results, hfil]
    rfl
  have hne : final_results cexStateC5 [String.toList "foo"] ≠ [] := by
    rw [hfr]
    simp
  have hsems2 : ([mkResult cexStateC5 [String.toList "foo"] 5,
      mkResult cexStateC5 [String.toList "foo"] 6]).map
      (fun r => compute_similarity cexStateC5 r.doc_id [String.toList "foo"]) =
      [1, 0] := by
    simp only [List.map_cons, List.map_nil]
    rw [show (mkResult cexStateC5 [String.toList "foo"] 5).doc_id = 5 from rfl,
        show (mkResult cexStateC5 [String.toList "foo"] 6).doc_id = 6 from rfl,
        simC5_5, simC5_6]
  have hmn : listMin [(1 : ℝ), 0] = 0 := by
    rw [listMin]
    simp only [List.foldl_cons, List.foldl_nil]
    norm_num [min_def]
  have hmx : listMax [(1 : ℝ), 0] = 1 := by
    rw [listMax]
    simp only [List.foldl_cons, List.foldl_nil]
    norm_num [max_def]
  have happ : apply_semantic cexStateC5 [String.toList "foo"]
      [mkResult cexStateC5 [String.toList "foo"] 5,
       mkResult cexStateC5 [String.toList "foo"] 6] =
      [{ mkResult cexStateC5 [String.toList "foo"] 5 with
          score := 0.6 * (mkResult cexStateC5 [String.toList "foo"] 5).score +
            0.4 * ((1 - 0) / (1 - 0)) },
       { mkResult cexStateC5 [String.toList "foo"] 6 with
          score := 0.6 * (mkResult cexStateC5 [String.toList "foo"] 6).score +
            0.4 * ((0 - 0) / (1 - 0)) }] := by
    rw [apply_semantic, if_pos ⟨rfl, by simp⟩, hsems2]
    dsimp only
    rw [hmn, hmx, if_pos (by norm_num)]
    simp [List.zip_cons_cons]
  have hsearch : search cexStateC5 (String.toList "foo") =
      sortResults (apply_semantic cexStateC5 (split_query (cleanQuery (String.toList "foo")))
        (final_results cexStateC5 (split_query (cleanQuery (String.toList "foo"))))) :=
    search_eq_of_results_ne (by rw [hq]; exact hne)
  refine ⟨rfl, hne, by rw [sparseScoreC5.1, sparseScoreC5.2], ?_⟩
  refine ⟨{ mkResult cexStateC5 [String.toList "foo"] 6 with
      score := 0.6 * (mkResult cexStateC5 [String.toList "foo"] 6).score +
        0.4 * ((0 - 0) / (1 - 0)) }, ?_, rfl, ?_⟩
  · rw [hsearch, hq, hfr, happ, sortResults, if_neg (by simp)]
    exact (List.perm_insertionSort _ _).symm.subset (by simp)
  · show 0.6 * (mkResult cexStateC5 [String.toList "foo"] 6).score +
        0.4 * ((0 - 0) / (1 - 0)) ≠ sparseScore cexStateC5 [String.toList "foo"] 6
    have hmks6 : (mkResult cexStateC5 [String.toList "foo"] 6).score =
        Real.log 2 * 0.4 + 0.5 := sparseScoreC5.2
    rw [hmks6, sparseScoreC5.2]
    have hlog := Real.log_pos (by norm_num : (1 : ℝ) < 2)
    intro hcontra
    rw [show ((0 : ℝ) - 0) / (1 - 0) = 0 by norm_num] at hcontra
    linarith

open scoped Classical in
/-- Witness for the amended C5 at the concrete loaded-scorer state. -/
theorem C5_semantic_blending_witness :
    cexStateC5.semantic_enabled = true ∧
    final_results cexStateC5 (split_query (cleanQuery (String.toList "foo"))) ≠ [] ∧
    ((0 < listMax ((final_results cexStateC5 (split_query (cleanQuery
          (String.toList "foo")))).map
        (fun r => compute_similarity cexStateC5 r.doc_id (split_query (cleanQuery
          (String.toList "foo"))))) -
      listMin ((final_results cexStateC5 (split_query (cleanQuery
          (String.toList "foo")))).map
        (fun r => compute_similarity cexStateC5 r.doc_id (split_query (cleanQuery
          (String.toList "foo"))))) →
      ∀ r ∈ search cexStateC5 (String.toList "foo"),
        r.score = 0.6 * sparseScore cexStateC5 (split_query (cleanQuery
            (String.toList "foo"))) r.doc_id +
          0.4 * ((compute_similarity cexStateC5 r.doc_id (split_query (cleanQuery
              (String.toList "foo"))) -
              listMin ((final_results cexStateC5 (split_query (cleanQuery
                  (String.toList "foo")))).map
                (fun r => compute_similarity cexStateC5 r.doc_id (split_query (cleanQuery
                  (String.toList "foo")))))) /
            (listMax ((final_results cexStateC5 (split_query (cleanQuery
                  (String.toList "foo")))).map
                (fun r => compute_similarity cexStateC5 r.doc_id (split_query (cleanQuery
                  (String.toList "foo"))))) -
              listMin ((final_results cexStateC5 (split_query (cleanQuery
                  (String.toList "foo")))).map
                (fun r => compute_similarity cexStateC5 r.doc_id (split_query (cleanQuery
                  (String.toList "foo")))))))) ∧
    (listMax ((final_results cexStateC5 (split_query (cleanQuery
          (String.toList "foo")))).map
        (fun r => compute_similarity cexStateC5 r.doc_id (split_query (cleanQuery
          (String.toList "foo"))))) -
      listMin ((final_results cexStateC5 (split_query (cleanQuery
          (String.toList "foo")))).map
        (fun r => compute_similarity cexStateC5 r.doc_id (split_query (cleanQuery
          (String.toList "foo"))))) ≤ 0 →
      ∀ r ∈ search cexStateC5 (String.toList "foo"),
        r.score = sparseScore cexStateC5 (split_query (cleanQuery
          (String.toList "foo"))) r.doc_id)) := by
  have hq : split_query (cleanQuery (String.toList "foo")) = [String.toList "foo"] := by
    decide
  have hne : final_results cexStateC5 (split_query (cleanQuery (String.toList "foo"))) ≠
      [] := by
    rw [hq, final_results,
      show andFiltered cexStateC5 [String.toList "foo"] = [(5, 1), (6, 1)] from rfl]
    simp
  exact ⟨rfl, hne, C5_semantic_blending cexStateC5 (String.toList "foo") rfl hne⟩

end SearchEngine
